import Mathlib

/-
Verification development for the bingwallpaper synchronization tool.

The program is a single-pass sync engine: it reads the last recorded date
from the first 8 bytes of a newest-first ledger file, fetches a
newest-first remote listing of dated items, collects the URLs of items
dated strictly after the baseline (skipping items dated after today),
processes them oldest-first (resolve detail page, download image, prepend
a record line to the ledger), and invokes the presentation sink (set
background and notify) once, for the newest eligible item.

Modelling conventions:
  - Go byte strings are modelled as List Nat (byte values); byte 10 is the
    newline, 32 the space, 38 ampersand, 39 apostrophe, 59 semicolon,
    92 backslash.
  - Calendar days are modelled as Nat codes below 10 ^ 8, rendered in the
    ledger as the fixed-width 8-digit decimal of the code.  This abstracts
    the YYYYMMDD layout: the encoding is 8 digit bytes and is strictly
    order-preserving, which is all the program relies on.  The parser
    accepts any 8 digit bytes and rejects any buffer containing a
    non-digit byte, matching the behaviour relevant to the claims
    (valid encodings round-trip, buffers with newline or NUL padding fail).
  - Network interaction is a Remote environment: a flag for whether the
    listing page fetch and parse succeed, the parsed newest-first listing,
    and a partial map from detail-page URL to the resolved detail data
    (date, image filename, title, description).  A none result models any
    failure inside downloadWallpaper (transitional page, photo page, image
    download): the Go code panics there, which we model as an aborted run.
  - log.Panic and os.Exit are modelled as run outcomes; effects (listing
    fetch, detail fetch, presentation-sink invocation, ledger append) are
    recorded in a trace.
-/

/-- Byte strings: Go strings and file contents as lists of byte values. -/
abbrev Str := List Nat

/-- A remotely discovered candidate from the listing page: its parsed date
and the detail-page URL (URLs modelled as opaque Nat identifiers). -/
structure DatedItem where
  date : Nat
  url : Nat
deriving DecidableEq, Repr

/-- The data resolved by downloadWallpaper from a detail page: the date
shown on the photo page, the image filename (last path segment of the
image source), the title, and the description. -/
structure Detail where
  date : Nat
  filename : Str
  title : Str
  description : Str
deriving DecidableEq, Repr

/-- The remote environment a run interacts with. -/
structure Remote where
  listingOk : Bool
  listing : List DatedItem
  detail : Nat → Option Detail

/-- Observable effects of a run, in order of occurrence. -/
inductive Eff where
  | fetchListing : Eff
  | fetchDetail (url : Nat) : Eff
  | present (filename title description : Str) : Eff
  | appendLine (date : Nat) (filename description : Str) : Eff
deriving DecidableEq, Repr

/-- How a run ends: the idempotence fast path (os.Exit(0) when the ledger
baseline equals today), normal completion, or an abort (log.Panic). -/
inductive RunOutcome where
  | fastPath : RunOutcome
  | completed : RunOutcome
  | aborted : RunOutcome
deriving DecidableEq, Repr

/-- The result of a run: the ledger file bytes afterwards, the effect
trace, and the outcome. -/
structure RunResult where
  file : Str
  trace : List Eff
  outcome : RunOutcome
deriving DecidableEq, Repr

/-- Recursion core of strings.Replace: the fuel argument only makes the
recursion structural (each step consumes at least one byte, so any fuel
of at least the length of the string gives the untruncated result). -/
def replaceAllGo (p r : List Nat) : Nat → List Nat → List Nat
  | _, [] => []
  | 0, s => s
  | fuel + 1, b :: s =>
    if p ≠ [] ∧ p.isPrefixOf (b :: s) then
      r ++ replaceAllGo p r fuel ((b :: s).drop p.length)
    else
      b :: replaceAllGo p r fuel s

/-- Go strings.Replace with n = -1: replace every non-overlapping
occurrence of p in s by r, scanning left to right.  (For the empty
pattern the program never calls it; we leave s unchanged.) -/
def replaceAll (p r s : List Nat) : List Nat := replaceAllGo p r s.length s

/-- The literal four-byte sequence backslash x 2 6, the sed-safe escape
of the ampersand. -/
def seqAmp : List Nat := [92, 120, 50, 54]

/-- The literal four-byte sequence backslash x 2 7, the sed-safe escape
of the apostrophe. -/
def seqApos : List Nat := [92, 120, 50, 55]

/-- The literal four-byte sequence backslash x 3 b, the sed-safe escape
of the semicolon. -/
def seqSemi : List Nat := [92, 120, 51, 98]

/-- The escaping applied by logWallpaper before handing the line to sed:
ampersand, then apostrophe, then semicolon are each replaced by their
literal backslash-x escape sequence. -/
def escapeDescription (s : Str) : Str :=
  replaceAll [59] seqSemi (replaceAll [39] seqApos (replaceAll [38] seqAmp s))

/-- Per-byte view of the escaping: what one input byte contributes. -/
def escByte (b : Nat) : Str :=
  if b = 38 then seqAmp else if b = 39 then seqApos else if b = 59 then seqSemi else [b]

/-- Byte-by-byte expansion of the escaping transform. -/
def escAll : Str → Str
  | [] => []
  | b :: s => escByte b ++ escAll s

/-- Modelled from the spec: the inverse of the defined escaping transform
(the unescaping a consumer of the ledger applies to recover the
description).  No unescaping routine exists in the source; the spec only
asserts the transform is invertible. -/
def unescapeDescription : Str → Str
  | [] => []
  | 92 :: 120 :: 50 :: 54 :: t => 38 :: unescapeDescription t
  | 92 :: 120 :: 50 :: 55 :: t => 39 :: unescapeDescription t
  | 92 :: 120 :: 51 :: 98 :: t => 59 :: unescapeDescription t
  | b :: s => b :: unescapeDescription s

/-- The fixed-width 8-digit encoding of a date code (the YYYYMMDD layout
abstracted to the 8-digit decimal of the code). -/
def dateCode (d : Nat) : Str :=
  [48 + d / 10000000 % 10, 48 + d / 1000000 % 10, 48 + d / 100000 % 10,
   48 + d / 10000 % 10, 48 + d / 1000 % 10, 48 + d / 100 % 10,
   48 + d / 10 % 10, 48 + d % 10]

/-- Whether a byte is an ASCII digit. -/
def isDigitB (b : Nat) : Bool := decide (48 ≤ b ∧ b ≤ 57)

/-- time.Parse of the fixed-width 8-byte date layout: succeeds exactly on
8 digit bytes, returning the encoded date code. -/
def parseDate8 (bs : Str) : Option Nat :=
  match bs with
  | [a, b, c, d, e, f, g, h] =>
    if isDigitB a && isDigitB b && isDigitB c && isDigitB d &&
       isDigitB e && isDigitB f && isDigitB g && isDigitB h then
      some ((a - 48) * 10000000 + (b - 48) * 1000000 + (c - 48) * 100000 +
            (d - 48) * 10000 + (e - 48) * 1000 + (f - 48) * 100 +
            (g - 48) * 10 + (h - 48))
    else none
  | _ => none

/-- The 8-byte read of the ledger head: Go File.Read with an 8-byte
zeroed buffer.  On an empty file the read itself fails (0 bytes and
io.EOF); otherwise it returns the available bytes, the rest of the buffer
keeping its NUL initialisation. -/
def readFirst8 (f : Str) : Option Str :=
  if f.isEmpty then none
  else some (f.take 8 ++ List.replicate (8 - f.length) 0)

/-- The description actually logged by logWallpaper: the title, a period,
two spaces, then the description text. -/
def composedDesc (det : Detail) : Str :=
  det.title ++ [46, 32, 32] ++ det.description

/-- The record line logWallpaper builds: date code, space, filename,
space, escaped composed description. -/
def encodeLine (det : Detail) : Str :=
  dateCode det.date ++ 32 :: det.filename ++ 32 :: escapeDescription (composedDesc det)

/-- logWallpaper: sed splices the record line plus a newline in front of
the existing file contents. -/
def logWallpaper (det : Detail) (f : Str) : Str :=
  encodeLine det ++ 10 :: f

/-- The first raw line of the file (up to the first newline byte). -/
def firstLine (f : Str) : Str := f.takeWhile (fun b => b != 10)

/-- Drop one space-separated field: everything up to and including the
first space byte. -/
def dropField (l : Str) : Str := (l.dropWhile (fun b => b != 32)).drop 1

/-- The third part of strings.SplitN(line, space, 3): the remainder after
the second space. -/
def thirdField (l : Str) : Str := dropField (dropField l)

/-- The lines of a file, splitting at newline bytes (a trailing newline
closes the last line rather than opening an empty one). -/
def linesOf : Str → List Str
  | [] => []
  | 10 :: s => [] :: linesOf s
  | b :: s =>
    match linesOf s with
    | [] => [[b]]
    | ln :: rest => (b :: ln) :: rest

/-- The date recorded on one ledger line: the fixed-width parse of its
first 8 bytes (NUL-padded when the line is shorter). -/
def lineDate (ln : Str) : Option Nat :=
  parseDate8 (ln.take 8 ++ List.replicate (8 - ln.length) 0)

/-- The dates of the well-formed records of a ledger file, in file order
(newest first when the invariant holds). -/
def recordDates (f : Str) : List Nat :=
  (linesOf f).filterMap lineDate

/-- The EachWithBreak scan over the newest-first listing: stop at the
first item not dated strictly after lastDate; skip (but scan past) items
dated after today; collect the URLs of the rest, in listing order. -/
def collectUrls (lastDate today : Nat) : List DatedItem → List Nat
  | [] => []
  | it :: rest =>
    if it.date ≤ lastDate then []
    else if today < it.date then collectUrls lastDate today rest
    else it.url :: collectUrls lastDate today rest

/-- The items the scan actually examines: everything up to and including
the first item not dated strictly after lastDate. -/
def scannedItems (lastDate : Nat) : List DatedItem → List DatedItem
  | [] => []
  | it :: rest =>
    if it.date ≤ lastDate then [it]
    else it :: scannedItems lastDate rest

/-- The processing order of the collected URLs with their presentation
flags: indices len-1 down to 1 are backfill (download and log only), then
index 0 additionally drives the presentation sink. -/
def jobsOf (urls : List Nat) : List (Nat × Bool) :=
  match urls with
  | [] => []
  | u0 :: rest => rest.reverse.map (fun u => (u, false)) ++ [(u0, true)]

/-- The download-and-log loop.  Each job resolves its detail page (a none
result models any panic inside downloadWallpaper), optionally invokes the
presentation sink, and prepends a record line; a failure aborts, keeping
the records already appended. -/
def goProcess (dt : Nat → Option Detail) :
    List (Nat × Bool) → Str → List Eff → Str × List Eff × Bool
  | [], f, tr => (f, tr, false)
  | (u, pres) :: rest, f, tr =>
    match dt u with
    | none => (f, tr ++ [Eff.fetchDetail u], true)
    | some det =>
      goProcess dt rest (logWallpaper det f)
        ((tr ++ [Eff.fetchDetail u] ++
          (if pres then [Eff.present det.filename det.title det.description] else [])) ++
          [Eff.appendLine det.date det.filename (composedDesc det)])

/-- The details of the jobs processed before the first resolution
failure, in processing order. -/
def processedDets (dt : Nat → Option Detail) : List (Nat × Bool) → List Detail
  | [] => []
  | (u, _) :: rest =>
    match dt u with
    | none => []
    | some det => det :: processedDets dt rest

/-- The trace contributed by the processing loop. -/
def goTrace (dt : Nat → Option Detail) : List (Nat × Bool) → List Eff
  | [] => []
  | (u, pres) :: rest =>
    match dt u with
    | none => [Eff.fetchDetail u]
    | some det =>
      Eff.fetchDetail u ::
        ((if pres then [Eff.present det.filename det.title det.description] else []) ++
          (Eff.appendLine det.date det.filename (composedDesc det) :: goTrace dt rest))

/-- Whether the processing loop aborts on a detail-resolution failure. -/
def goAborts (dt : Nat → Option Detail) : List (Nat × Bool) → Bool
  | [] => false
  | (u, _) :: rest =>
    match dt u with
    | none => true
    | some _ => goAborts dt rest

/-- The run from the point where the baseline date is known: fetch the
listing page (panic on fetch or parse failure, or when no items are
found), collect the eligible URLs, and process them; an empty collection
is a no-op. -/
def runAfterBaseline (today lastDate : Nat) (remote : Remote) (f : Str) : RunResult :=
  if remote.listingOk = false then ⟨f, [Eff.fetchListing], RunOutcome.aborted⟩
  else if remote.listing.isEmpty then ⟨f, [Eff.fetchListing], RunOutcome.aborted⟩
  else
    match collectUrls lastDate today remote.listing with
    | [] => ⟨f, [Eff.fetchListing], RunOutcome.completed⟩
    | u0 :: rest =>
      match goProcess remote.detail (jobsOf (u0 :: rest)) f [Eff.fetchListing] with
      | (f2, tr, ab) =>
        ⟨f2, tr, if ab then RunOutcome.aborted else RunOutcome.completed⟩

/-- The main entry point.  With no ledger file, create it as a single
newline and take yesterday as the baseline.  With an existing file, read
its first 8 bytes (abort if the read or the fixed-width date parse
fails); if the parsed date equals today, exit immediately (fast path),
otherwise use it as the baseline. -/
def runMain (today : Nat) (remote : Remote) (file? : Option Str) : RunResult :=
  match file? with
  | none => runAfterBaseline today (today - 1) remote [10]
  | some f =>
    match readFirst8 f with
    | none => ⟨f, [], RunOutcome.aborted⟩
    | some buf =>
      match parseDate8 buf with
      | none => ⟨f, [], RunOutcome.aborted⟩
      | some d =>
        if d = today then ⟨f, [], RunOutcome.fastPath⟩
        else runAfterBaseline today d remote f

/-- The ledger appends recorded in a trace: date, filename, logged
description. -/
def appendsOf : List Eff → List (Nat × Str × Str)
  | [] => []
  | Eff.appendLine d fn ds :: r => (d, fn, ds) :: appendsOf r
  | _ :: r => appendsOf r

/-- The presentation-sink invocations recorded in a trace. -/
def presentsOf : List Eff → List (Str × Str × Str)
  | [] => []
  | Eff.present fn t ds :: r => (fn, t, ds) :: presentsOf r
  | _ :: r => presentsOf r

/-- The number of HTTP requests a trace represents: one for the listing
page, three per processed item (transitional page, photo page, image). -/
def networkCalls : List Eff → Nat
  | [] => 0
  | Eff.fetchListing :: r => 1 + networkCalls r
  | Eff.fetchDetail _ :: r => 3 + networkCalls r
  | _ :: r => networkCalls r

/-- A sequence of runs, threading the ledger file through. -/
def runFold : Option Str → List (Nat × Remote) → Option Str
  | file?, [] => file?
  | file?, (t, rm) :: rest => runFold (some (runMain t rm file?).file) rest

/-- The fuel of the replacement core is irrelevant once it covers the
length of the string. -/
theorem replaceAllGo_congr (p r : List Nat) :
    ∀ n (s : List Nat), s.length ≤ n → ∀ f1 f2, s.length ≤ f1 → s.length ≤ f2 →
      replaceAllGo p r f1 s = replaceAllGo p r f2 s := by
  intro n
  induction n with
  | zero =>
    intro s hs f1 f2 h1 h2
    have hnil : s = [] := by cases s <;> simp_all
    subst hnil
    simp [replaceAllGo]
  | succ n ih =>
    intro s hs f1 f2 h1 h2
    cases s with
    | nil => simp [replaceAllGo]
    | cons b t =>
      cases f1 with
      | zero => simp at h1
      | succ g1 =>
        cases f2 with
        | zero => simp at h2
        | succ g2 =>
          have hp1 : 1 ≤ p.length ∨ p = [] := by
            cases p <;> simp
          by_cases hp : p ≠ [] ∧ p.isPrefixOf (b :: t)
          · simp only [replaceAllGo, if_pos hp]
            congr 1
            have hplen : 1 ≤ p.length := by
              rcases hp1 with h | h
              · exact h
              · exact absurd h hp.1
            apply ih
            · simp only [List.length_drop, List.length_cons]
              simp only [List.length_cons] at hs
              omega
            · simp only [List.length_drop, List.length_cons]
              simp only [List.length_cons] at h1
              omega
            · simp only [List.length_drop, List.length_cons]
              simp only [List.length_cons] at h2
              omega
          · simp only [replaceAllGo, if_neg hp]
            congr 1
            simp only [List.length_cons] at hs h1 h2
            apply ih
            · omega
            · omega
            · omega

/-- Step equation of the replacement at a matching position. -/
theorem replaceAll_cons_pos {p : List Nat} (r : List Nat) {b : Nat} {s : List Nat}
    (h : p ≠ [] ∧ p.isPrefixOf (b :: s)) :
    replaceAll p r (b :: s) = r ++ replaceAll p r ((b :: s).drop p.length) := by
  have hplen : 1 ≤ p.length := by
    cases p with
    | nil => exact absurd rfl h.1
    | cons x xs => simp
  simp only [replaceAll, List.length_cons, replaceAllGo, if_pos h]
  congr 1
  apply replaceAllGo_congr p r (s.length + 1)
  · simp only [List.length_drop, List.length_cons]
    omega
  · simp only [List.length_drop, List.length_cons]
    omega
  · simp only [List.length_drop, List.length_cons]
    omega

/-- Step equation of the replacement at a non-matching position. -/
theorem replaceAll_cons_neg {p : List Nat} (r : List Nat) {b : Nat} {s : List Nat}
    (h : ¬ (p ≠ [] ∧ p.isPrefixOf (b :: s))) :
    replaceAll p r (b :: s) = b :: replaceAll p r s := by
  simp only [replaceAll, List.length_cons, replaceAllGo, if_neg h]

/-- The date encoding is 8 bytes long. -/
theorem dateCode_length (d : Nat) : (dateCode d).length = 8 := by
  simp [dateCode]

/-- Every byte of the date encoding is an ASCII digit. -/
theorem dateCode_digits {d b : Nat} (hb : b ∈ dateCode d) : 48 ≤ b ∧ b ≤ 57 := by
  simp only [dateCode, List.mem_cons, List.not_mem_nil, or_false] at hb
  rcases hb with rfl|rfl|rfl|rfl|rfl|rfl|rfl|rfl <;> omega

/-- Round trip: parsing the fixed-width encoding of a date code below
10 ^ 8 recovers the code. -/
theorem parseDate8_dateCode (d : Nat) (hd : d < 100000000) :
    parseDate8 (dateCode d) = some d := by
  have h : ∀ x : Nat, isDigitB (48 + x % 10) = true := by
    intro x
    simp only [isDigitB, decide_eq_true_eq]
    omega
  simp only [parseDate8, dateCode, h, Bool.and_self, if_true]
  congr 1
  omega

/-- Any successfully parsed date code is below 10 ^ 8. -/
theorem parseDate8_lt {bs : Str} {d : Nat} (h : parseDate8 bs = some d) :
    d < 100000000 := by
  unfold parseDate8 at h
  split at h
  · split at h
    · rename_i hc
      simp only [Bool.and_eq_true, isDigitB, decide_eq_true_eq] at hc
      injection h with h
      omega
    · exact absurd h (by simp)
  · exact absurd h (by simp)

/-- A buffer containing a non-digit byte never parses as a date. -/
theorem parseDate8_none_of_bad {bs : Str} {x : Nat} (hx : x ∈ bs)
    (hbad : x < 48 ∨ 57 < x) : parseDate8 bs = none := by
  unfold parseDate8
  split
  · rename_i a b c e f g i j
    split
    · rename_i hc
      simp only [Bool.and_eq_true, isDigitB, decide_eq_true_eq] at hc
      simp only [List.mem_cons, List.not_mem_nil, or_false] at hx
      rcases hx with rfl|rfl|rfl|rfl|rfl|rfl|rfl|rfl <;> omega
    · rfl
  · rename_i hshape
    rfl

/-- Closed form of the EachWithBreak scan: the collected URLs are the
non-future items of the maximal leading strictly-after-lastDate window,
in listing order. -/
theorem collectUrls_closed (lastDate today : Nat) (l : List DatedItem) :
    collectUrls lastDate today l =
      ((l.takeWhile (fun it => decide (lastDate < it.date))).filter
        (fun it => decide (it.date ≤ today))).map DatedItem.url := by
  induction l with
  | nil => simp [collectUrls]
  | cons it rest ih =>
    by_cases h1 : it.date ≤ lastDate
    · have h1' : ¬ lastDate < it.date := by omega
      simp [collectUrls, h1, List.takeWhile_cons, h1']
    · have h1' : lastDate < it.date := by omega
      by_cases h2 : today < it.date
      · have h2' : ¬ it.date ≤ today := by omega
        simp [collectUrls, h1, h2, List.takeWhile_cons, h1', List.filter_cons, h2', ih]
      · have h2' : it.date ≤ today := by omega
        simp [collectUrls, h1, h2, List.takeWhile_cons, h1', List.filter_cons, h2', ih]

/-- Items behind the first stopping item never influence the collection. -/
theorem collectUrls_stop (lastDate today : Nat) (x : DatedItem)
    (hx : x.date ≤ lastDate) :
    ∀ l1 l2, collectUrls lastDate today (l1 ++ x :: l2) =
      collectUrls lastDate today (l1 ++ [x]) := by
  intro l1
  induction l1 with
  | nil =>
    intro l2
    simp [collectUrls, hx]
  | cons y t ih =>
    intro l2
    by_cases h1 : y.date ≤ lastDate
    · simp [collectUrls, h1]
    · by_cases h2 : today < y.date
      · simpa [collectUrls, h1, h2] using ih l2
      · simpa [collectUrls, h1, h2] using ih l2

/-- Items behind the first stopping item are never examined. -/
theorem scannedItems_stop (lastDate : Nat) (x : DatedItem)
    (hx : x.date ≤ lastDate) :
    ∀ l1 l2, scannedItems lastDate (l1 ++ x :: l2) =
      scannedItems lastDate (l1 ++ [x]) := by
  intro l1
  induction l1 with
  | nil =>
    intro l2
    simp [scannedItems, hx]
  | cons y t ih =>
    intro l2
    by_cases h1 : y.date ≤ lastDate
    · simp [scannedItems, h1]
    · simpa [scannedItems, h1] using ih l2

/-- C4: the claim as frozen states the collected URL list is exactly the
maximal leading strictly-after-lastDate window.  The scan additionally
excludes items dated after today from the collection, so the claim fails
on a window containing a pre-published future item: with lastDate 0 and
today 1, a listing holding one item dated 2 collects nothing, while the
claimed formula yields that item. -/
theorem window_formula_cex :
    collectUrls 0 1 [⟨2, 7⟩] ≠
      (([⟨2, 7⟩] : List DatedItem).takeWhile
        (fun it => decide (0 < it.date))).map DatedItem.url := by
  decide

/-- C4 (amended): the collected URL list consists exactly of the items in
the maximal leading prefix whose dates are strictly after lastDate that
are additionally not dated after today, in listing order; scanning stops
at the first item whose date is not strictly after lastDate, and no item
behind that point is examined or collected. -/
theorem window_formula_amended :
    (∀ lastDate today l, collectUrls lastDate today l =
      ((l.takeWhile (fun it => decide (lastDate < it.date))).filter
        (fun it => decide (it.date ≤ today))).map DatedItem.url) ∧
    (∀ lastDate today (x : DatedItem) l1 l2, x.date ≤ lastDate →
      collectUrls lastDate today (l1 ++ x :: l2) =
        collectUrls lastDate today (l1 ++ [x]) ∧
      scannedItems lastDate (l1 ++ x :: l2) =
        scannedItems lastDate (l1 ++ [x])) := by
  refine ⟨collectUrls_closed, ?_⟩
  intro lastDate today x l1 l2 hx
  exact ⟨collectUrls_stop lastDate today x hx l1 l2,
    scannedItems_stop lastDate x hx l1 l2⟩

/-- Witness for the amended window formula at a concrete input: four
listing items, baseline 3, today 5; the junk item behind the stopping
item is invisible to both the collection and the scan. -/
theorem window_formula_witness :
    collectUrls 3 5 [⟨5, 1⟩, ⟨4, 2⟩, ⟨3, 3⟩, ⟨9, 4⟩] =
      collectUrls 3 5 [⟨5, 1⟩, ⟨4, 2⟩, ⟨3, 3⟩] ∧
    scannedItems 3 [⟨5, 1⟩, ⟨4, 2⟩, ⟨3, 3⟩, ⟨9, 4⟩] =
      scannedItems 3 [⟨5, 1⟩, ⟨4, 2⟩, ⟨3, 3⟩] :=
  window_formula_amended.2 3 5 ⟨3, 3⟩ [⟨5, 1⟩, ⟨4, 2⟩] [⟨9, 4⟩] (by decide)

/-- A single-byte pattern replacement expands byte by byte. -/
theorem replaceAll_single (c : Nat) (r : List Nat) :
    ∀ s : List Nat, replaceAll [c] r s =
      s.flatMap (fun b => if b = c then r else [b]) := by
  intro s
  induction s with
  | nil => rfl
  | cons b t ih =>
    by_cases hb : b = c
    · subst hb
      rw [replaceAll_cons_pos r ⟨by simp, by simp [List.isPrefixOf]⟩]
      simp [ih]
    · rw [replaceAll_cons_neg r (by simp [List.isPrefixOf]; omega)]
      simp [hb, ih]

/-- The byte-level expansion of the whole transform. -/
theorem escAll_eq_flatMap (s : Str) : escAll s = s.flatMap escByte := by
  induction s with
  | nil => simp [escAll]
  | cons b t ih => simp [escAll, ih]

/-- The three sequential replacements of logWallpaper amount to the
byte-by-byte escaping: no escape sequence contains a later-replaced
byte. -/
theorem escapeDescription_eq_escAll (s : Str) :
    escapeDescription s = escAll s := by
  rw [escapeDescription, escAll_eq_flatMap]
  rw [replaceAll_single, replaceAll_single, replaceAll_single]
  rw [List.flatMap_assoc, List.flatMap_assoc]
  apply List.flatMap_congr  -- pointwise equality of the block expansions
  intro b _
  by_cases h1 : b = 38
  · subst h1; simp [seqAmp, seqApos, seqSemi, escByte]
  · by_cases h2 : b = 39
    · subst h2; simp [seqAmp, seqApos, seqSemi, escByte]
    · by_cases h3 : b = 59
      · subst h3; simp [seqAmp, seqApos, seqSemi, escByte]
      · simp [h1, h2, h3, escByte]

/-- The decoder passes over any byte other than a backslash. -/
theorem unescape_cons_ne (b : Nat) (s : Str) (hb : b ≠ 92) :
    unescapeDescription (b :: s) = b :: unescapeDescription s := by
  conv_lhs => rw [unescapeDescription.eq_def]
  split
  · simp_all
  · simp_all
  · simp_all
  · simp_all
  · rename_i heq
    injection heq with h1 h2
    rw [h1, h2]

/-- Unescaping is a left inverse of the escaping on descriptions that
contain no backslash byte. -/
theorem unescape_escAll (s : Str) (hs : 92 ∉ s) :
    unescapeDescription (escAll s) = s := by
  induction s with
  | nil => simp [escAll, unescapeDescription]
  | cons b t ih =>
    have hbt : 92 ∉ t := fun h => hs (List.mem_cons_of_mem _ h)
    have hb92 : b ≠ 92 := fun h => hs (h ▸ List.mem_cons_self _ _)
    by_cases h1 : b = 38
    · subst h1
      have he : escAll (38 :: t) = 92 :: 120 :: 50 :: 54 :: escAll t := by
        simp [escAll, escByte, seqAmp]
      rw [he]
      simp only [unescapeDescription]
      rw [ih hbt]
    · by_cases h2 : b = 39
      · subst h2
        have he : escAll (39 :: t) = 92 :: 120 :: 50 :: 55 :: escAll t := by
          simp [escAll, escByte, seqApos]
        rw [he]
        simp only [unescapeDescription]
        rw [ih hbt]
      · by_cases h3 : b = 59
        · subst h3
          have he : escAll (59 :: t) = 92 :: 120 :: 51 :: 98 :: escAll t := by
            simp [escAll, escByte, seqSemi]
          rw [he]
          simp only [unescapeDescription]
          rw [ih hbt]
        · have he : escAll (b :: t) = b :: escAll t := by
            simp [escAll, escByte, h1, h2, h3]
          rw [he, unescape_cons_ne b _ hb92, ih hbt]

/-- The ledger after the processing loop: each successfully processed job
prepends its record, in processing order, stopping at the first failure. -/
theorem goProcess_file (dt : Nat → Option Detail) :
    ∀ jobs f tr, (goProcess dt jobs f tr).1 =
      List.foldl (fun acc det => logWallpaper det acc) f (processedDets dt jobs) := by
  intro jobs
  induction jobs with
  | nil => intro f tr; rfl
  | cons j rest ih =>
    intro f tr
    obtain ⟨u, pres⟩ := j
    cases hdu : dt u with
    | none => simp [goProcess, processedDets, hdu]
    | some det => simp [goProcess, processedDets, hdu, ih]

/-- The trace of the processing loop extends the incoming trace by the
per-job effects. -/
theorem goProcess_trace (dt : Nat → Option Detail) :
    ∀ jobs f tr, (goProcess dt jobs f tr).2.1 = tr ++ goTrace dt jobs := by
  intro jobs
  induction jobs with
  | nil => intro f tr; simp [goProcess, goTrace]
  | cons j rest ih =>
    intro f tr
    obtain ⟨u, pres⟩ := j
    cases hdu : dt u with
    | none => simp [goProcess, goTrace, hdu]
    | some det => simp [goProcess, goTrace, hdu, ih]

/-- The abort flag of the processing loop. -/
theorem goProcess_ab (dt : Nat → Option Detail) :
    ∀ jobs f tr, (goProcess dt jobs f tr).2.2 = goAborts dt jobs := by
  intro jobs
  induction jobs with
  | nil => intro f tr; rfl
  | cons j rest ih =>
    intro f tr
    obtain ⟨u, pres⟩ := j
    cases hdu : dt u with
    | none => simp [goProcess, goAborts, hdu]
    | some det => simp [goProcess, goAborts, hdu, ih]

/-- Append extraction distributes over trace concatenation. -/
theorem appendsOf_append (t1 t2 : List Eff) :
    appendsOf (t1 ++ t2) = appendsOf t1 ++ appendsOf t2 := by
  induction t1 with
  | nil => simp [appendsOf]
  | cons e r ih => cases e <;> simp [appendsOf, ih]

/-- Presentation extraction distributes over trace concatenation. -/
theorem presentsOf_append (t1 t2 : List Eff) :
    presentsOf (t1 ++ t2) = presentsOf t1 ++ presentsOf t2 := by
  induction t1 with
  | nil => simp [presentsOf]
  | cons e r ih => cases e <;> simp [presentsOf, ih]

/-- Network-call counting is additive over trace concatenation. -/
theorem networkCalls_append (t1 t2 : List Eff) :
    networkCalls (t1 ++ t2) = networkCalls t1 + networkCalls t2 := by
  induction t1 with
  | nil => simp [networkCalls]
  | cons e r ih => cases e <;> simp [networkCalls, ih] <;> omega

/-- The appends in the loop trace are exactly the processed records. -/
theorem appendsOf_goTrace (dt : Nat → Option Detail) :
    ∀ jobs, appendsOf (goTrace dt jobs) =
      (processedDets dt jobs).map (fun det => (det.date, det.filename, composedDesc det)) := by
  intro jobs
  induction jobs with
  | nil => rfl
  | cons j rest ih =>
    obtain ⟨u, pres⟩ := j
    cases hdu : dt u with
    | none => simp [goTrace, processedDets, hdu, appendsOf]
    | some det =>
      cases pres <;>
        simp [goTrace, processedDets, hdu, appendsOf, appendsOf_append, ih]

/-- Jobs with a cleared presentation flag never invoke the sink. -/
theorem presentsOf_goTrace_noflag (dt : Nat → Option Detail) :
    ∀ jobs, (∀ j ∈ jobs, j.2 = false) → presentsOf (goTrace dt jobs) = [] := by
  intro jobs
  induction jobs with
  | nil => intro h; rfl
  | cons j rest ih =>
    intro h
    obtain ⟨u, pres⟩ := j
    have hp : pres = false := h (u, pres) (List.mem_cons_self _ _)
    subst hp
    cases hdu : dt u with
    | none => simp [goTrace, hdu, presentsOf]
    | some det =>
      simp only [goTrace, hdu, if_neg Bool.false_ne_true, List.nil_append]
      simp only [presentsOf]
      exact ih (fun j hj => h j (List.mem_cons_of_mem _ hj))

/-- The loop trace splits over a job-list concatenation when the first
part completes. -/
theorem goTrace_append (dt : Nat → Option Detail) :
    ∀ j1 j2, goAborts dt j1 = false →
      goTrace dt (j1 ++ j2) = goTrace dt j1 ++ goTrace dt j2 := by
  intro j1
  induction j1 with
  | nil => intro j2 h; rfl
  | cons j rest ih =>
    intro j2 h
    obtain ⟨u, pres⟩ := j
    cases hdu : dt u with
    | none => simp [goAborts, hdu] at h
    | some det =>
      simp only [goAborts, hdu] at h
      simp [goTrace, hdu, ih j2 h]

/-- The processed records split over a job-list concatenation when the
first part completes. -/
theorem processedDets_append (dt : Nat → Option Detail) :
    ∀ j1 j2, goAborts dt j1 = false →
      processedDets dt (j1 ++ j2) = processedDets dt j1 ++ processedDets dt j2 := by
  intro j1
  induction j1 with
  | nil => intro j2 h; rfl
  | cons j rest ih =>
    intro j2 h
    obtain ⟨u, pres⟩ := j
    cases hdu : dt u with
    | none => simp [goAborts, hdu] at h
    | some det =>
      simp only [goAborts, hdu] at h
      simp [processedDets, hdu, ih j2 h]

/-- When every job of a list resolves, none of it aborts. -/
theorem goAborts_of_resolved (dt : Nat → Option Detail) :
    ∀ jobs, (∀ j ∈ jobs, (dt j.1).isSome) → goAborts dt jobs = false := by
  intro jobs
  induction jobs with
  | nil => intro h; rfl
  | cons j rest ih =>
    intro h
    obtain ⟨u, pres⟩ := j
    have hu : (dt u).isSome := h (u, pres) (List.mem_cons_self _ _)
    cases hdu : dt u with
    | none => rw [hdu] at hu; simp at hu
    | some det =>
      simp only [goAborts, hdu]
      exact ih (fun j hj => h j (List.mem_cons_of_mem _ hj))

/-- Fully resolved jobs built from a list of items process to the mapped
details. -/
theorem processedDets_of_g (dt : Nat → Option Detail) (g : DatedItem → Detail) :
    ∀ (its : List DatedItem) (jobs : List (Nat × Bool)),
      jobs.map Prod.fst = its.map DatedItem.url →
      (∀ it ∈ its, dt it.url = some (g it)) →
      processedDets dt jobs = its.map g := by
  intro its
  induction its with
  | nil =>
    intro jobs hmap hres
    have : jobs = [] := by
      cases jobs with
      | nil => rfl
      | cons j r => simp at hmap
    subst this
    rfl
  | cons it ir ih =>
    intro jobs hmap hres
    cases jobs with
    | nil => simp at hmap
    | cons j jr =>
      obtain ⟨u, pres⟩ := j
      simp only [List.map_cons, List.cons.injEq] at hmap
      have hu : u = it.url := hmap.1
      subst hu
      have hit : dt it.url = some (g it) := hres it (List.mem_cons_self _ _)
      simp only [processedDets, hit]
      rw [List.map_cons]
      congr 1
      exact ih jr hmap.2 (fun x hx => hres x (List.mem_cons_of_mem _ hx))

/-- Partially resolved jobs built from a list of items process to a
prefix of the items, with matching dates. -/
theorem processedDets_dates_take (dt : Nat → Option Detail) :
    ∀ (its : List DatedItem) (jobs : List (Nat × Bool)),
      jobs.map Prod.fst = its.map DatedItem.url →
      (∀ it ∈ its, ∀ det, dt it.url = some det → det.date = it.date) →
      ∃ k, (processedDets dt jobs).map Detail.date = (its.map DatedItem.date).take k := by
  intro its
  induction its with
  | nil =>
    intro jobs hmap hres
    have : jobs = [] := by
      cases jobs with
      | nil => rfl
      | cons j r => simp at hmap
    subst this
    exact ⟨0, rfl⟩
  | cons it ir ih =>
    intro jobs hmap hres
    cases jobs with
    | nil => simp at hmap
    | cons j jr =>
      obtain ⟨u, pres⟩ := j
      simp only [List.map_cons, List.cons.injEq] at hmap
      have hu : u = it.url := hmap.1
      subst hu
      cases hdu : dt it.url with
      | none => exact ⟨0, by simp [processedDets, hdu]⟩
      | some det =>
        obtain ⟨k, hk⟩ :=
          ih jr hmap.2 (fun x hx => hres x (List.mem_cons_of_mem _ hx))
        refine ⟨k + 1, ?_⟩
        have hd : det.date = it.date := hres it (List.mem_cons_self _ _) det hdu
        simp [processedDets, hdu, hd, hk]

/-- Every processed record satisfies any property guaranteed by the
job-wise resolution. -/
theorem processedDets_mem_prop (dt : Nat → Option Detail) (P : Detail → Prop) :
    ∀ jobs, (∀ j ∈ jobs, ∀ det, dt j.1 = some det → P det) →
      ∀ det ∈ processedDets dt jobs, P det := by
  intro jobs
  induction jobs with
  | nil => intro h det hdet; simp [processedDets] at hdet
  | cons j rest ih =>
    intro h det hdet
    obtain ⟨u, pres⟩ := j
    cases hdu : dt u with
    | none => simp [processedDets, hdu] at hdet
    | some d0 =>
      simp only [processedDets, hdu, List.mem_cons] at hdet
      rcases hdet with rfl | hdet
      · exact h (u, pres) (List.mem_cons_self _ _) det hdu
      · exact ih (fun j hj => h j (List.mem_cons_of_mem _ hj)) det hdet

/-- A run that reaches the listing with a successfully parsed baseline
unfolds to the post-baseline phase. -/
theorem runMain_some_eq (today : Nat) (remote : Remote) (f buf : Str) (d : Nat)
    (h8 : readFirst8 f = some buf) (hp : parseDate8 buf = some d)
    (hne : d ≠ today) :
    runMain today remote (some f) = runAfterBaseline today d remote f := by
  simp only [runMain, h8, hp]
  rw [if_neg hne]

/-- C2: a run whose computed eligible list is empty terminates normally
as a no-op: the ledger is unchanged (or, on a first run, only the blank
placeholder is created), and the trace holds the listing fetch only — no
detail fetch, no image fetch, no presentation, no append. -/
theorem empty_window_noop :
    (∀ today (remote : Remote) (f buf : Str) (d : Nat),
      readFirst8 f = some buf → parseDate8 buf = some d → d ≠ today →
      remote.listingOk = true → remote.listing ≠ [] →
      collectUrls d today remote.listing = [] →
      runMain today remote (some f) = ⟨f, [Eff.fetchListing], RunOutcome.completed⟩) ∧
    (∀ today (remote : Remote),
      remote.listingOk = true → remote.listing ≠ [] →
      collectUrls (today - 1) today remote.listing = [] →
      runMain today remote none = ⟨[10], [Eff.fetchListing], RunOutcome.completed⟩) := by
  constructor
  · intro today remote f buf d h8 hp hne hok hnil hcoll
    rw [runMain_some_eq today remote f buf d h8 hp hne]
    have hemp : remote.listing.isEmpty = false := by
      cases h : remote.listing with
      | nil => exact absurd h hnil
      | cons a l => simp [List.isEmpty]
    simp only [runAfterBaseline, hok, hemp, hcoll]
    simp
  · intro today remote hok hnil hcoll
    have hemp : remote.listing.isEmpty = false := by
      cases h : remote.listing with
      | nil => exact absurd h hnil
      | cons a l => simp [List.isEmpty]
    simp only [runMain, runAfterBaseline, hok, hemp, hcoll]
    simp

/-- Witness for the empty-window no-op: baseline 4, today 5, the listing
head is dated 4 already, so nothing is eligible; and a first run against
the same listing with today 5 (baseline yesterday 4) is likewise a
creation-only no-op. -/
theorem empty_window_noop_witness :
    runMain 5 ⟨true, [⟨4, 2⟩, ⟨3, 1⟩], fun _ => none⟩ (some (dateCode 4 ++ [10])) =
      ⟨dateCode 4 ++ [10], [Eff.fetchListing], RunOutcome.completed⟩ ∧
    runMain 5 ⟨true, [⟨4, 2⟩, ⟨3, 1⟩], fun _ => none⟩ none =
      ⟨[10], [Eff.fetchListing], RunOutcome.completed⟩ :=
  ⟨empty_window_noop.1 5 ⟨true, [⟨4, 2⟩, ⟨3, 1⟩], fun _ => none⟩ (dateCode 4 ++ [10])
      (dateCode 4) 4 (by decide) (by decide) (by decide) rfl (by decide) (by decide),
    empty_window_noop.2 5 ⟨true, [⟨4, 2⟩, ⟨3, 1⟩], fun _ => none⟩ rfl (by decide) (by decide)⟩

/-- C3: a listing entry dated strictly after today is excluded from
collection (hence from download, append and presentation, which are
driven solely by the collected URL list), but the scan continues past it,
so the eligible entries behind it are still collected; consequently a
whole run behaves exactly as if the future entry were absent. -/
theorem future_date_skip :
    (∀ lastDate today (fut : DatedItem) l1 l2,
      today < fut.date → lastDate < fut.date →
      collectUrls lastDate today (l1 ++ fut :: l2) =
        collectUrls lastDate today (l1 ++ l2)) ∧
    (∀ today (fut : DatedItem) l1 l2 (dt : Nat → Option Detail) (f buf : Str) (d : Nat),
      today < fut.date → d < fut.date →
      readFirst8 f = some buf → parseDate8 buf = some d → d ≠ today →
      l1 ++ l2 ≠ [] →
      runMain today ⟨true, l1 ++ fut :: l2, dt⟩ (some f) =
        runMain today ⟨true, l1 ++ l2, dt⟩ (some f)) := by
  have key : ∀ lastDate today (fut : DatedItem) l1 l2,
      today < fut.date → lastDate < fut.date →
      collectUrls lastDate today (l1 ++ fut :: l2) =
        collectUrls lastDate today (l1 ++ l2) := by
    intro lastDate today fut l1 l2 hfut hel
    induction l1 with
    | nil =>
      have h1 : ¬ fut.date ≤ lastDate := by omega
      simp [collectUrls, h1, hfut]
    | cons y t ih =>
      by_cases hy : y.date ≤ lastDate
      · simp [collectUrls, hy]
      · by_cases hy2 : today < y.date
        · simpa [collectUrls, hy, hy2] using ih
        · simpa [collectUrls, hy, hy2] using ih
  refine ⟨key, ?_⟩
  intro today fut l1 l2 dt f buf d hfut hd h8 hp hne hnil
  rw [runMain_some_eq today _ f buf d h8 hp hne,
    runMain_some_eq today _ f buf d h8 hp hne]
  have hemp1 : (l1 ++ fut :: l2).isEmpty = false := by
    cases l1 <;> simp [List.isEmpty]
  have hemp2 : (l1 ++ l2).isEmpty = false := by
    cases h : l1 ++ l2 with
    | nil => exact absurd h hnil
    | cons a t => simp [List.isEmpty]
  simp only [runAfterBaseline, hemp1, hemp2, key d today fut l1 l2 hfut hd]

/-- Witness for the future-date skip: today 5, baseline 3, a listing
with a pre-published item dated 6 ahead of eligible items dated 5 and 4;
both the scan and the whole run agree with the future-free listing. -/
theorem future_date_skip_witness :
    collectUrls 3 5 [⟨6, 9⟩, ⟨5, 1⟩, ⟨4, 2⟩] = collectUrls 3 5 [⟨5, 1⟩, ⟨4, 2⟩] ∧
    runMain 5 ⟨true, [⟨6, 9⟩, ⟨5, 1⟩, ⟨4, 2⟩], fun _ => none⟩ (some (dateCode 3 ++ [10])) =
      runMain 5 ⟨true, [⟨5, 1⟩, ⟨4, 2⟩], fun _ => none⟩ (some (dateCode 3 ++ [10])) :=
  ⟨future_date_skip.1 3 5 ⟨6, 9⟩ [] [⟨5, 1⟩, ⟨4, 2⟩] (by decide) (by decide),
    future_date_skip.2 5 ⟨6, 9⟩ [] [⟨5, 1⟩, ⟨4, 2⟩] (fun _ => none)
      (dateCode 3 ++ [10]) (dateCode 3) 3 (by decide) (by decide) (by decide)
      (by decide) (by decide) (by decide)⟩


/-- takeWhile over a satisfied block followed by a failing byte. -/
theorem takeWhile_block (p : Nat → Bool) :
    ∀ (xs : List Nat) (y : Nat) (r : List Nat), (∀ x ∈ xs, p x = true) → p y = false →
      (xs ++ y :: r).takeWhile p = xs := by
  intro xs
  induction xs with
  | nil => intro y r hxs hy; simp [List.takeWhile_cons, hy]
  | cons b t ih =>
    intro y r hxs hy
    have hb : p b = true := hxs b (List.mem_cons_self _ _)
    simp only [List.cons_append, List.takeWhile_cons, hb, if_true]
    rw [ih y r (fun x hx => hxs x (List.mem_cons_of_mem _ hx)) hy]

/-- dropWhile over a satisfied block followed by a failing byte. -/
theorem dropWhile_block (p : Nat → Bool) :
    ∀ (xs : List Nat) (y : Nat) (r : List Nat), (∀ x ∈ xs, p x = true) → p y = false →
      (xs ++ y :: r).dropWhile p = y :: r := by
  intro xs
  induction xs with
  | nil => intro y r hxs hy; simp [List.dropWhile_cons, hy]
  | cons b t ih =>
    intro y r hxs hy
    have hb : p b = true := hxs b (List.mem_cons_self _ _)
    simp only [List.cons_append, List.dropWhile_cons, hb, if_true]
    exact ih y r (fun x hx => hxs x (List.mem_cons_of_mem _ hx)) hy

/-- Every byte of the escaped form is an input byte or part of an escape
sequence. -/
theorem escAll_mem_cases {s : Str} {b2 : Nat} (h : b2 ∈ escAll s) :
    b2 ∈ s ∨ b2 = 92 ∨ b2 = 120 ∨ b2 = 50 ∨ b2 = 51 ∨ b2 = 54 ∨ b2 = 55 ∨ b2 = 98 := by
  induction s with
  | nil => simp [escAll] at h
  | cons b t ih =>
    rcases List.mem_append.mp (by simpa [escAll] using h) with hmem | hmem
    · by_cases h1 : b = 38
      · subst h1
        simp [escByte, seqAmp] at hmem
        tauto
      · by_cases h2 : b = 39
        · subst h2
          simp [escByte, seqApos] at hmem
          tauto
        · by_cases h3 : b = 59
          · subst h3
            simp [escByte, seqSemi] at hmem
            tauto
          · simp [escByte, h1, h2, h3] at hmem
            subst hmem
            exact Or.inl (List.mem_cons_self _ _)
    · rcases ih hmem with hx | hx
      · exact Or.inl (List.mem_cons_of_mem _ hx)
      · exact Or.inr hx

/-- The escaping introduces no newline byte. -/
theorem escape_no10 {s : Str} (hs : 10 ∉ s) :
    10 ∉ escapeDescription s := by
  rw [escapeDescription_eq_escAll]
  intro h
  rcases escAll_mem_cases h with h | h
  · exact hs h
  · omega

/-- The composed description has no newline byte when neither part has. -/
theorem composedDesc_no10 {det : Detail} (ht : 10 ∉ det.title)
    (hd : 10 ∉ det.description) : 10 ∉ composedDesc det := by
  intro h
  simp only [composedDesc, List.mem_append, List.mem_cons, List.not_mem_nil,
    or_false] at h
  rcases h with (h | h | h | h) | h
  · exact ht h
  · omega
  · omega
  · omega
  · exact hd h

/-- The whole record line has no newline byte when the record fields have
none. -/
theorem encodeLine_no10 {det : Detail} (hfn : 10 ∉ det.filename)
    (ht : 10 ∉ det.title) (hd : 10 ∉ det.description) :
    10 ∉ encodeLine det := by
  intro h
  simp only [encodeLine, List.mem_append, List.mem_cons] at h
  rcases h with (h | h | h) | h | h
  · have := dateCode_digits h
    omega
  · omega
  · exact hfn h
  · omega
  · exact escape_no10 (composedDesc_no10 ht hd) h

/-- The third space-separated field of the record line is exactly the
escaped composed description. -/
theorem thirdField_encodeLine (det : Detail) (hfn32 : 32 ∉ det.filename) :
    thirdField (encodeLine det) = escapeDescription (composedDesc det) := by
  have hshape : encodeLine det =
      dateCode det.date ++
        (32 :: (det.filename ++ (32 :: escapeDescription (composedDesc det)))) := by
    simp [encodeLine]
  rw [hshape]
  unfold thirdField dropField
  rw [dropWhile_block (fun b => b != 32) (dateCode det.date) 32 _
      (fun x hx => by
        have := dateCode_digits hx
        simp only [bne_iff_ne, ne_eq]
        omega)
      (by simp)]
  simp only [List.drop_succ_cons, List.drop_zero]
  rw [dropWhile_block (fun b => b != 32) det.filename 32 _
      (fun x hx => by
        simp only [bne_iff_ne, ne_eq]
        intro hx32
        exact hfn32 (hx32 ▸ hx))
      (by simp)]
  simp

/-- C8: the escaping is not invertible, so the claimed read-back recovery
fails: two different descriptions, both containing the reserved
apostrophe — one holding an ampersand, the other holding the literal
four-byte sequence backslash x 2 6 — produce byte-identical first ledger
lines, so no unescaping of the read-back line can recover both
originals. -/
theorem escaping_roundtrip_cex :
    firstLine (logWallpaper ⟨1, [102], [116], [39, 38]⟩ []) =
      firstLine (logWallpaper ⟨1, [102], [116], [39, 92, 120, 50, 54]⟩ []) ∧
    ([39, 38] : Str) ≠ [39, 92, 120, 50, 54] ∧
    39 ∈ ([39, 38] : Str) ∧ 39 ∈ ([39, 92, 120, 50, 54] : Str) := by
  refine ⟨?_, by decide, by decide, by decide⟩
  simp only [logWallpaper, encodeLine, escapeDescription_eq_escAll]
  decide

/-- C8 (amended): for a description and title containing reserved
characters (ampersand, apostrophe, semicolon) but no backslash byte — in
particular none of the literal escape sequences — and no newline, with a
space-free, newline-free filename, appending a record and unescaping the
third field of the first raw line read back recovers the logged composed
description exactly. -/
theorem escaping_roundtrip_amended (det : Detail) (f : Str)
    (hfn32 : 32 ∉ det.filename) (hfn10 : 10 ∉ det.filename)
    (ht10 : 10 ∉ det.title) (hd10 : 10 ∉ det.description)
    (ht92 : 92 ∉ det.title) (hd92 : 92 ∉ det.description)
    (hres : 38 ∈ det.description ∨ 39 ∈ det.description ∨ 59 ∈ det.description) :
    unescapeDescription (thirdField (firstLine (logWallpaper det f))) =
      composedDesc det := by
  have hl10 : 10 ∉ encodeLine det := encodeLine_no10 hfn10 ht10 hd10
  have hfl : firstLine (logWallpaper det f) = encodeLine det := by
    unfold firstLine logWallpaper
    exact takeWhile_block (fun b => b != 10) (encodeLine det) 10 f
      (fun x hx => by
        simp only [bne_iff_ne, ne_eq]
        intro h10
        exact hl10 (h10 ▸ hx))
      (by simp)
  rw [hfl, thirdField_encodeLine det hfn32, escapeDescription_eq_escAll]
  apply unescape_escAll
  intro h
  simp only [composedDesc, List.mem_append, List.mem_cons, List.not_mem_nil,
    or_false] at h
  rcases h with (h | h | h | h) | h
  · exact ht92 h
  · omega
  · omega
  · omega
  · exact hd92 h

/-- Witness for the amended escaping round trip at a concrete record
whose description holds all three reserved characters. -/
theorem escaping_roundtrip_witness :
    unescapeDescription (thirdField (firstLine
      (logWallpaper ⟨1, [102], [116], [38, 39, 59]⟩ [10]))) =
      composedDesc ⟨1, [102], [116], [38, 39, 59]⟩ :=
  escaping_roundtrip_amended ⟨1, [102], [116], [38, 39, 59]⟩ [10]
    (by decide) (by decide) (by decide) (by decide) (by decide) (by decide)
    (by decide)

/-- When every listing item is eligible and non-future, the scan collects
every URL in order. -/
theorem collect_all_eligible (lastDate today : Nat) :
    ∀ l : List DatedItem, (∀ it ∈ l, lastDate < it.date ∧ it.date ≤ today) →
      collectUrls lastDate today l = l.map DatedItem.url := by
  intro l
  induction l with
  | nil => intro h; rfl
  | cons it t ih =>
    intro h
    obtain ⟨h1, h2⟩ := h it (List.mem_cons_self _ _)
    have h1x : ¬ it.date ≤ lastDate := by omega
    have h2x : ¬ today < it.date := by omega
    simp [collectUrls, h1x, h2x, ih (fun x hx => h x (List.mem_cons_of_mem _ hx))]

/-- The processing order visits the collected URLs reversed. -/
theorem jobsOf_fst (u0 : Nat) (rest : List Nat) :
    (jobsOf (u0 :: rest)).map Prod.fst = rest.reverse ++ [u0] := by
  simp [jobsOf]
  have hco : (Prod.fst ∘ fun u : Nat => (u, false)) = id := rfl
  rw [hco, List.map_id]

/-- Reversing the descending date window yields the ascending one. -/
theorem range_desc_reverse :
    ∀ (N D : Nat), ((List.range N).map (fun k => D + (N - k))).reverse =
      (List.range N).map (fun k => D + 1 + k) := by
  intro N
  induction N with
  | zero => intro D; rfl
  | succ M ih =>
    intro D
    conv_lhs => rw [List.range_succ_eq_map]
    conv_rhs => rw [List.range_succ]
    rw [List.map_cons, List.map_map, List.reverse_cons]
    have hcomp : (List.range M).map ((fun k => D + (M + 1 - k)) ∘ Nat.succ) =
        (List.range M).map (fun k => D + (M - k)) := by
      apply List.map_congr_left
      intro k hk
      simp only [Function.comp]
      omega
    rw [hcomp, ih D, List.map_append]
    have hlast : D + (M + 1 - 0) = D + 1 + M := by omega
    simp [hlast]
    omega

/-- Reading the head of a ledger whose first line starts with a full date
code returns exactly that code. -/
theorem readFirst8_dateCode (d : Nat) (rest : Str) :
    readFirst8 (dateCode d ++ rest) = some (dateCode d) := by
  unfold readFirst8
  have hne : (dateCode d ++ rest).isEmpty = false := by
    simp [dateCode]
  rw [hne]
  have hlen : 8 - (dateCode d ++ rest).length = 0 := by
    simp [dateCode]
  rw [hlen]
  have htake : (dateCode d ++ rest).take 8 = dateCode d := by
    conv_lhs => rw [← dateCode_length d]
    exact List.take_left (dateCode d) rest
  simp [htake]

/-- The post-baseline run with a non-empty collection is the processing
loop over the reversed URLs. -/
theorem runAfterBaseline_go (today lastDate : Nat) (remote : Remote) (f : Str)
    (hok : remote.listingOk = true) (hemp : remote.listing.isEmpty = false)
    (u0 : Nat) (us : List Nat)
    (hcoll : collectUrls lastDate today remote.listing = u0 :: us) :
    runAfterBaseline today lastDate remote f =
      ⟨(goProcess remote.detail (jobsOf (u0 :: us)) f [Eff.fetchListing]).1,
       (goProcess remote.detail (jobsOf (u0 :: us)) f [Eff.fetchListing]).2.1,
       if (goProcess remote.detail (jobsOf (u0 :: us)) f [Eff.fetchListing]).2.2
       then RunOutcome.aborted else RunOutcome.completed⟩ := by
  unfold runAfterBaseline
  rw [hok, hcoll]
  rw [if_neg (by simp)]
  rw [hemp]
  rfl

/-- C1: catch-up completeness within one page.  From a ledger whose first
line records baseline D, against a listing holding exactly the items
dated D+1 .. D+N newest-first with none after today, a run completes,
appends exactly the N records resolved from the per-item detail pages in
oldest-first order (dates D+1 .. D+N), and invokes the presentation sink
exactly once, with the resolved data of the item dated D+N. -/
theorem catchup_completeness
    (D N today : Nat) (remote : Remote) (g : DatedItem → Detail)
    (it0 : DatedItem) (lr : List DatedItem) (rest : Str)
    (hN : 0 < N) (hDN : D + N ≤ today) (hD8 : D < 100000000)
    (hok : remote.listingOk = true)
    (hlist : remote.listing = it0 :: lr)
    (hdates : (it0 :: lr).map DatedItem.date =
      (List.range N).map (fun k => D + (N - k)))
    (hg : ∀ it ∈ it0 :: lr, remote.detail it.url = some (g it))
    (hgd : ∀ it ∈ it0 :: lr, (g it).date = it.date) :
    ∀ r, r = runMain today remote (some (dateCode D ++ rest)) →
      r.outcome = RunOutcome.completed ∧
      appendsOf r.trace = ((it0 :: lr).reverse).map
        (fun it => ((g it).date, (g it).filename, composedDesc (g it))) ∧
      (appendsOf r.trace).map Prod.fst =
        (List.range N).map (fun k => D + 1 + k) ∧
      presentsOf r.trace =
        [((g it0).filename, (g it0).title, (g it0).description)] ∧
      (g it0).date = D + N := by
  intro r hr
  have helig : ∀ it ∈ it0 :: lr, D < it.date ∧ it.date ≤ today := by
    intro it hit
    have hmem : it.date ∈ (it0 :: lr).map DatedItem.date :=
      List.mem_map_of_mem _ hit
    rw [hdates] at hmem
    obtain ⟨k, hk, hkd⟩ := List.mem_map.mp hmem
    have hkN : k < N := List.mem_range.mp hk
    omega
  have hDne : D ≠ today := by omega
  have hcoll : collectUrls D today remote.listing =
      it0.url :: lr.map DatedItem.url := by
    rw [hlist, collect_all_eligible D today _ helig, List.map_cons]
  have hemp : remote.listing.isEmpty = false := by rw [hlist]; rfl
  have hrun : r = runAfterBaseline today D remote (dateCode D ++ rest) := by
    rw [hr, runMain_some_eq today remote _ (dateCode D) D
      (readFirst8_dateCode D rest) (parseDate8_dateCode D hD8) hDne]
  rw [hrun, runAfterBaseline_go today D remote _ hok hemp _ _ hcoll]
  have hfst : (jobsOf (it0.url :: lr.map DatedItem.url)).map Prod.fst =
      ((it0 :: lr).reverse).map DatedItem.url := by
    rw [jobsOf_fst, List.reverse_cons, List.map_append]
    simp [List.map_reverse]
  have hres : ∀ it ∈ (it0 :: lr).reverse, remote.detail it.url = some (g it) :=
    fun it hit => hg it (List.mem_reverse.mp hit)
  have hpd : processedDets remote.detail (jobsOf (it0.url :: lr.map DatedItem.url)) =
      ((it0 :: lr).reverse).map g :=
    processedDets_of_g remote.detail g _ _ hfst hres
  have hsome : ∀ j ∈ jobsOf (it0.url :: lr.map DatedItem.url),
      (remote.detail j.1).isSome := by
    intro j hj
    have hj1 : j.1 ∈ (jobsOf (it0.url :: lr.map DatedItem.url)).map Prod.fst :=
      List.mem_map_of_mem _ hj
    rw [hfst] at hj1
    obtain ⟨it, hit, hue⟩ := List.mem_map.mp hj1
    rw [← hue, hres it hit]
    rfl
  have hnoab : goAborts remote.detail (jobsOf (it0.url :: lr.map DatedItem.url)) =
      false := goAborts_of_resolved remote.detail _ hsome
  have htr : (goProcess remote.detail (jobsOf (it0.url :: lr.map DatedItem.url))
      (dateCode D ++ rest) [Eff.fetchListing]).2.1 =
      [Eff.fetchListing] ++
        goTrace remote.detail (jobsOf (it0.url :: lr.map DatedItem.url)) :=
    goProcess_trace _ _ _ _
  have hab : (goProcess remote.detail (jobsOf (it0.url :: lr.map DatedItem.url))
      (dateCode D ++ rest) [Eff.fetchListing]).2.2 = false :=
    (goProcess_ab _ _ _ _).trans hnoab
  have hdate0 : it0.date = D + N := by
    obtain ⟨M, rfl⟩ : ∃ M, N = M + 1 := ⟨N - 1, by omega⟩
    have hh := congrArg List.head? hdates
    rw [List.range_succ_eq_map] at hh
    simp only [List.map_cons, List.head?_cons] at hh
    simp only [Option.some.injEq] at hh
    omega
  refine ⟨?_, ?_, ?_, ?_, ?_⟩
  · rw [hab]
    rfl
  · rw [htr, appendsOf_append, appendsOf_goTrace, hpd, List.map_map]
    rfl
  · rw [htr, appendsOf_append, appendsOf_goTrace, hpd,
      show appendsOf [Eff.fetchListing] = [] from rfl, List.nil_append,
      List.map_map, List.map_map]
    have h3 : ∀ F : DatedItem → Nat, (∀ it ∈ (it0 :: lr).reverse, F it = it.date) →
        ((it0 :: lr).reverse).map F = (List.range N).map (fun k => D + 1 + k) := by
      intro F hFd
      rw [List.map_congr_left hFd, List.map_reverse, hdates, range_desc_reverse]
    apply h3
    intro it hit
    simp only [Function.comp]
    exact hgd it (List.mem_reverse.mp hit)
  · have hsplit : jobsOf (it0.url :: lr.map DatedItem.url) =
        ((lr.map DatedItem.url).reverse.map (fun u => (u, false))) ++
          [(it0.url, true)] := by
      simp [jobsOf]
    have hAres : goAborts remote.detail
        ((lr.map DatedItem.url).reverse.map (fun u => (u, false))) = false := by
      apply goAborts_of_resolved
      intro j hj
      obtain ⟨u, hu, hju⟩ := List.mem_map.mp hj
      have hu2 : u ∈ lr.map DatedItem.url := List.mem_reverse.mp hu
      obtain ⟨it, hit, hue⟩ := List.mem_map.mp hu2
      rw [← hju]
      simp only
      rw [← hue, hg it (List.mem_cons_of_mem _ hit)]
      rfl
    rw [htr, presentsOf_append, hsplit, goTrace_append _ _ _ hAres,
      presentsOf_append]
    rw [presentsOf_goTrace_noflag _ _ (by
      intro j hj
      obtain ⟨u, hu, hju⟩ := List.mem_map.mp hj
      rw [← hju])]
    have hg0 : remote.detail it0.url = some (g it0) :=
      hg it0 (List.mem_cons_self _ _)
    simp [goTrace, hg0, presentsOf]
  · rw [hgd it0 (List.mem_cons_self _ _)]
    exact hdate0

/-- Witness for catch-up completeness: baseline 3, today 5, listing with
items dated 5 and 4; the run appends the two resolved records
oldest-first and presents the newest one. -/
theorem catchup_completeness_witness :
    (runMain 5 ⟨true, [⟨5, 1⟩, ⟨4, 2⟩],
      fun u => if u = 1 then some ⟨5, [102], [116], [100]⟩
        else if u = 2 then some ⟨4, [103], [117], [101]⟩ else none⟩
      (some (dateCode 3 ++ [10]))).outcome = RunOutcome.completed ∧
    appendsOf (runMain 5 ⟨true, [⟨5, 1⟩, ⟨4, 2⟩],
      fun u => if u = 1 then some ⟨5, [102], [116], [100]⟩
        else if u = 2 then some ⟨4, [103], [117], [101]⟩ else none⟩
      (some (dateCode 3 ++ [10]))).trace =
      [(4, [103], [117, 46, 32, 32, 101]), (5, [102], [116, 46, 32, 32, 100])] ∧
    presentsOf (runMain 5 ⟨true, [⟨5, 1⟩, ⟨4, 2⟩],
      fun u => if u = 1 then some ⟨5, [102], [116], [100]⟩
        else if u = 2 then some ⟨4, [103], [117], [101]⟩ else none⟩
      (some (dateCode 3 ++ [10]))).trace = [([102], [116], [100])] := by
  obtain ⟨h1, h2, h3, h4, h5⟩ :=
    catchup_completeness 3 2 5
      ⟨true, [⟨5, 1⟩, ⟨4, 2⟩],
        fun u => if u = 1 then some ⟨5, [102], [116], [100]⟩
          else if u = 2 then some ⟨4, [103], [117], [101]⟩ else none⟩
      (fun it => if it.url = 1 then ⟨5, [102], [116], [100]⟩
        else ⟨4, [103], [117], [101]⟩)
      ⟨5, 1⟩ [⟨4, 2⟩] [10]
      (by decide) (by decide) (by decide) rfl rfl (by decide) (by decide)
      (by decide) _ rfl
  exact ⟨h1, h2.trans (by decide), h4.trans (by decide)⟩

/-- Membership in a takeWhile satisfies the predicate. -/
theorem mem_takeWhile_prop {α : Type} (p : α → Bool) :
    ∀ (l : List α) (x : α), x ∈ l.takeWhile p → p x = true := by
  intro l
  induction l with
  | nil => intro x hx; simp [List.takeWhile] at hx
  | cons b t ih =>
    intro x hx
    by_cases hb : p b
    · rw [List.takeWhile_cons, if_pos hb] at hx
      rcases List.mem_cons.mp hx with rfl | hx2
      · exact hb
      · exact ih x hx2
    · rw [List.takeWhile_cons, if_neg hb] at hx
      simp at hx

/-- The first line of a non-empty file and the remaining lines. -/
theorem linesOf_ne_nil :
    ∀ f : Str, f ≠ [] → linesOf f =
      f.takeWhile (fun c => c != 10) ::
        linesOf ((f.dropWhile (fun c => c != 10)).drop 1) := by
  intro f
  induction f with
  | nil => intro h; exact absurd rfl h
  | cons b s ih =>
    intro _
    by_cases hb : b = 10
    · subst hb
      simp [linesOf, List.takeWhile_cons, List.dropWhile_cons]
    · have hbne : (b != 10) = true := by simp [hb]
      have hcons : ∀ s2 : Str, linesOf (b :: s2) =
          match linesOf s2 with
          | [] => [[b]]
          | ln :: rest => (b :: ln) :: rest := by
        intro s2
        conv_lhs => rw [linesOf.eq_def]
        split
        · simp_all
        · rename_i heq
          injection heq with h1 h2
          omega
        · rename_i b2 s2x hne2 heq
          injection heq with h1 h2
          subst h1
          subst h2
          rfl
      cases s with
      | nil =>
        rw [hcons []]
        simp [linesOf, List.takeWhile_cons, List.dropWhile_cons, hbne]
      | cons c t =>
        rw [hcons (c :: t), ih (List.cons_ne_nil _ _)]
        simp [List.takeWhile_cons, List.dropWhile_cons, hbne]

/-- Splitting a file at a prepended newline-free line. -/
theorem linesOf_prepend :
    ∀ (xs : Str), 10 ∉ xs → ∀ f, linesOf (xs ++ 10 :: f) = xs :: linesOf f := by
  intro xs hxs
  induction xs with
  | nil => intro f; simp [linesOf]
  | cons b t ih =>
    intro f
    have hb : b ≠ 10 := fun h => hxs (h ▸ List.mem_cons_self _ _)
    have ht : 10 ∉ t := fun h => hxs (List.mem_cons_of_mem _ h)
    have hcons : ∀ s : Str, linesOf (b :: s) =
        match linesOf s with
        | [] => [[b]]
        | ln :: rest => (b :: ln) :: rest := by
      intro s
      conv_lhs => rw [linesOf.eq_def]
      split
      · simp_all
      · rename_i heq
        injection heq with h1 h2
        omega
      · rename_i b2 s2 hne2 heq
        injection heq with h1 h2
        subst h1
        subst h2
        rfl
    rw [List.cons_append, hcons (t ++ 10 :: f), ih ht f]

/-- A successful date parse means the buffer is all digits. -/
theorem parseDate8_digits {bs : Str} {d : Nat} (h : parseDate8 bs = some d) :
    ∀ x ∈ bs, 48 ≤ x ∧ x ≤ 57 := by
  unfold parseDate8 at h
  split at h
  · split at h
    · rename_i hc
      simp only [Bool.and_eq_true, isDigitB, decide_eq_true_eq] at hc
      intro x hx
      simp only [List.mem_cons, List.not_mem_nil, or_false] at hx
      rcases hx with rfl|rfl|rfl|rfl|rfl|rfl|rfl|rfl <;> omega
    · exact absurd h (by simp)
  · exact absurd h (by simp)

/-- takeWhile walks through an all-satisfying block. -/
theorem takeWhile_append_all (p : Nat → Bool) :
    ∀ (xs ys : Str), (∀ x ∈ xs, p x = true) →
      (xs ++ ys).takeWhile p = xs ++ ys.takeWhile p := by
  intro xs
  induction xs with
  | nil => intro ys h; rfl
  | cons b t ih =>
    intro ys h
    have hb : p b = true := h b (List.mem_cons_self _ _)
    rw [List.cons_append, List.takeWhile_cons, if_pos hb, List.cons_append,
      ih ys (fun x hx => h x (List.mem_cons_of_mem _ hx))]

/-- The date recorded on a freshly encoded line is the record date. -/
theorem lineDate_encodeLine (det : Detail) (hd : det.date < 100000000) :
    lineDate (encodeLine det) = some det.date := by
  unfold lineDate
  have hshape : encodeLine det =
      dateCode det.date ++
        (32 :: (det.filename ++ (32 :: escapeDescription (composedDesc det)))) := by
    simp [encodeLine]
  rw [hshape]
  have htake : (dateCode det.date ++
      (32 :: (det.filename ++ (32 :: escapeDescription (composedDesc det))))).take 8 =
      dateCode det.date := by
    conv_lhs => rw [← dateCode_length det.date]
    exact List.take_left _ _
  have hlen : 8 - (dateCode det.date ++
      (32 :: (det.filename ++ (32 :: escapeDescription (composedDesc det))))).length = 0 := by
    simp [dateCode]
  rw [htake, hlen]
  simp [parseDate8_dateCode det.date hd]

/-- Appending a record prepends its date to the record dates. -/
theorem recordDates_log (det : Detail) (f : Str) (h10 : 10 ∉ encodeLine det)
    (hd : det.date < 100000000) :
    recordDates (logWallpaper det f) = det.date :: recordDates f := by
  unfold recordDates logWallpaper
  rw [linesOf_prepend (encodeLine det) h10 f]
  simp [List.filterMap_cons, lineDate_encodeLine det hd]

/-- Folding a batch of record appends prepends the batch dates reversed. -/
theorem recordDates_foldl :
    ∀ (dets : List Detail) (f : Str),
      (∀ det ∈ dets, det.date < 100000000 ∧ 10 ∉ encodeLine det) →
      recordDates (List.foldl (fun acc det => logWallpaper det acc) f dets) =
        ((dets.map Detail.date).reverse) ++ recordDates f := by
  intro dets
  induction dets with
  | nil => intro f h; simp
  | cons det ds ih =>
    intro f h
    obtain ⟨h1, h2⟩ := h det (List.mem_cons_self _ _)
    rw [List.foldl_cons, ih (logWallpaper det f)
      (fun x hx => h x (List.mem_cons_of_mem _ hx))]
    rw [recordDates_log det f h2 h1]
    simp

/-- A failed listing fetch aborts with the ledger untouched. -/
theorem runAfterBaseline_nolist (today lastDate : Nat) (remote : Remote) (f : Str)
    (hok : remote.listingOk = false) :
    runAfterBaseline today lastDate remote f =
      ⟨f, [Eff.fetchListing], RunOutcome.aborted⟩ := by
  unfold runAfterBaseline
  rw [hok]
  rw [if_pos rfl]

/-- A listing without items aborts with the ledger untouched. -/
theorem runAfterBaseline_emptylist (today lastDate : Nat) (remote : Remote) (f : Str)
    (hok : remote.listingOk = true) (hemp : remote.listing.isEmpty = true) :
    runAfterBaseline today lastDate remote f =
      ⟨f, [Eff.fetchListing], RunOutcome.aborted⟩ := by
  unfold runAfterBaseline
  rw [hok, hemp]
  rw [if_neg (by simp), if_pos rfl]

/-- An empty collection completes with the ledger untouched. -/
theorem runAfterBaseline_noopEq (today lastDate : Nat) (remote : Remote) (f : Str)
    (hok : remote.listingOk = true) (hemp : remote.listing.isEmpty = false)
    (hcoll : collectUrls lastDate today remote.listing = []) :
    runAfterBaseline today lastDate remote f =
      ⟨f, [Eff.fetchListing], RunOutcome.completed⟩ := by
  unfold runAfterBaseline
  rw [hok, hemp, hcoll]
  rw [if_neg (by simp), if_neg (by simp)]

/-- Every collected URL comes from an eligible, non-future listing item. -/
theorem mem_collectUrls {lastDate today : Nat} {l : List DatedItem} {u : Nat}
    (hu : u ∈ collectUrls lastDate today l) :
    ∃ it ∈ l, it.url = u ∧ lastDate < it.date ∧ it.date ≤ today := by
  rw [collectUrls_closed] at hu
  obtain ⟨it, hit, hue⟩ := List.mem_map.mp hu
  have hmemf := List.mem_filter.mp hit
  have h1 : it ∈ l := (List.takeWhile_sublist _).subset
    ((List.filter_sublist _).subset hit)
  have h2 : lastDate < it.date := by
    have := mem_takeWhile_prop _ _ _ ((List.filter_sublist _).subset hit)
    simpa using this
  have h3 : it.date ≤ today := by simpa using hmemf.2
  exact ⟨it, h1, hue, h2, h3⟩

/-- A ledger whose head parses to a date has that date as its first
record date. -/
theorem recordDates_head (f buf : Str) (d : Nat)
    (h8 : readFirst8 f = some buf) (hp : parseDate8 buf = some d) :
    ∃ tl, recordDates f = d :: tl := by
  have hfne : f ≠ [] := by
    intro h
    subst h
    simp [readFirst8] at h8
  have hfe : f.isEmpty = false := by
    cases f with
    | nil => exact absurd rfl hfne
    | cons a t => rfl
  have hbuf : buf = f.take 8 ++ List.replicate (8 - f.length) 0 := by
    unfold readFirst8 at h8
    rw [hfe] at h8
    simp at h8
    exact h8.symm
  have hlen : 8 ≤ f.length := by
    by_contra hlt
    push_neg at hlt
    have h0 : (0 : Nat) ∈ buf := by
      rw [hbuf]
      refine List.mem_append.mpr (Or.inr ?_)
      exact List.mem_replicate.mpr ⟨by omega, rfl⟩
    rw [parseDate8_none_of_bad h0 (Or.inl (by omega))] at hp
    exact absurd hp (by simp)
  have hbuf8 : buf = f.take 8 := by
    rw [hbuf]
    have hz : 8 - f.length = 0 := by omega
    simp [hz]
  have hdig : ∀ x ∈ f.take 8, 48 ≤ x ∧ x ≤ 57 :=
    parseDate8_digits (hbuf8 ▸ hp)
  have htw : f.takeWhile (fun c => c != 10) =
      f.take 8 ++ (f.drop 8).takeWhile (fun c => c != 10) := by
    conv_lhs => rw [← List.take_append_drop 8 f]
    exact takeWhile_append_all _ _ _ (fun x hx => by
      have := hdig x hx
      simp only [bne_iff_ne, ne_eq]
      omega)
  have hl8 : (f.take 8).length = 8 := by
    rw [List.length_take]
    omega
  have hfl8 : (f.takeWhile (fun c => c != 10)).take 8 = f.take 8 := by
    rw [htw]
    exact List.take_left' hl8
  have hflen : 8 ≤ (f.takeWhile (fun c => c != 10)).length := by
    rw [htw, List.length_append, hl8]
    omega
  have hld : lineDate (f.takeWhile (fun c => c != 10)) = some d := by
    unfold lineDate
    rw [hfl8]
    have hz : 8 - (f.takeWhile (fun c => c != 10)).length = 0 := by omega
    rw [hz]
    simp only [List.replicate, List.append_nil]
    rw [← hbuf8]
    exact hp
  refine ⟨(linesOf ((f.dropWhile (fun c => c != 10)).drop 1)).filterMap lineDate, ?_⟩
  unfold recordDates
  rw [linesOf_ne_nil f hfne, List.filterMap_cons, hld]

/-- The post-baseline phase preserves strict newest-first ordering of the
record dates, provided the listing is strictly newest-first, every
resolved detail carries the listing date with newline-free fields, and
every existing record date is at most the baseline. -/
theorem runAfterBaseline_sorted (today lastDate : Nat) (remote : Remote) (f : Str)
    (hchain : List.Chain' (fun a b : DatedItem => b.date < a.date) remote.listing)
    (hcons : ∀ it ∈ remote.listing, ∀ det, remote.detail it.url = some det →
      det.date = it.date ∧ det.date < 100000000 ∧
      10 ∉ det.filename ∧ 10 ∉ det.title ∧ 10 ∉ det.description)
    (hsorted : List.Chain' (fun a b : Nat => b < a) (recordDates f))
    (hhead : ∀ y ∈ recordDates f, y ≤ lastDate) :
    List.Chain' (fun a b : Nat => b < a)
      (recordDates (runAfterBaseline today lastDate remote f).file) := by
  cases hok : remote.listingOk with
  | false =>
    rw [runAfterBaseline_nolist today lastDate remote f hok]
    exact hsorted
  | true =>
    cases hemp : remote.listing.isEmpty with
    | true =>
      rw [runAfterBaseline_emptylist today lastDate remote f hok hemp]
      exact hsorted
    | false =>
      cases hcoll : collectUrls lastDate today remote.listing with
      | nil =>
        rw [runAfterBaseline_noopEq today lastDate remote f hok hemp hcoll]
        exact hsorted
      | cons u0 us =>
        rw [runAfterBaseline_go today lastDate remote f hok hemp u0 us hcoll]
        show List.Chain' (fun a b : Nat => b < a)
          (recordDates (goProcess remote.detail (jobsOf (u0 :: us)) f
            [Eff.fetchListing]).1)
        rw [goProcess_file]
        have hjobsmem : ∀ j ∈ jobsOf (u0 :: us), ∀ det,
            remote.detail j.1 = some det →
            lastDate < det.date ∧ det.date < 100000000 ∧ 10 ∉ encodeLine det := by
          intro j hj det hdet
          have hj1 : j.1 ∈ (jobsOf (u0 :: us)).map Prod.fst :=
            List.mem_map_of_mem _ hj
          rw [jobsOf_fst] at hj1
          have hj2 : j.1 ∈ u0 :: us := by
            rcases List.mem_append.mp hj1 with h | h
            · exact List.mem_cons_of_mem _ (List.mem_reverse.mp h)
            · rw [List.mem_singleton.mp h]
              exact List.mem_cons_self _ _
          rw [← hcoll] at hj2
          obtain ⟨it, hitl, hitu, hitd, _⟩ := mem_collectUrls hj2
          obtain ⟨hd1, hd2, hf1, hf2, hf3⟩ :=
            hcons it hitl det (by rw [hitu]; exact hdet)
          exact ⟨by omega, hd2, encodeLine_no10 hf1 hf2 hf3⟩
        have hmemP : ∀ det ∈ processedDets remote.detail (jobsOf (u0 :: us)),
            lastDate < det.date ∧ det.date < 100000000 ∧ 10 ∉ encodeLine det :=
          processedDets_mem_prop _ _ _ hjobsmem
        rw [recordDates_foldl (processedDets remote.detail (jobsOf (u0 :: us))) f
          (fun det hdet => ⟨(hmemP det hdet).2.1, (hmemP det hdet).2.2⟩)]
        rw [List.chain'_iff_pairwise] at hsorted ⊢
        apply List.pairwise_append.mpr
        refine ⟨?_, hsorted, ?_⟩
        · apply List.pairwise_reverse.mpr
          have hmapurl : u0 :: us =
              ((remote.listing.takeWhile
                (fun it => decide (lastDate < it.date))).filter
                  (fun it => decide (it.date ≤ today))).map DatedItem.url := by
            rw [← hcoll, collectUrls_closed]
          cases helig2 : (remote.listing.takeWhile
              (fun it => decide (lastDate < it.date))).filter
                (fun it => decide (it.date ≤ today)) with
          | nil =>
            rw [helig2] at hmapurl
            simp at hmapurl
          | cons e0 er =>
            rw [helig2] at hmapurl
            simp only [List.map_cons, List.cons.injEq] at hmapurl
            have hfst : (jobsOf (u0 :: us)).map Prod.fst =
                ((e0 :: er).reverse).map DatedItem.url := by
              rw [jobsOf_fst, hmapurl.1, hmapurl.2, List.reverse_cons,
                List.map_append, List.map_reverse]
              rfl
            have hsub : (e0 :: er).Sublist remote.listing := by
              rw [← helig2]
              exact (List.filter_sublist _).trans (List.takeWhile_sublist _)
            have hconsel : ∀ it ∈ (e0 :: er).reverse, ∀ det,
                remote.detail it.url = some det → det.date = it.date := by
              intro it hit det hdet
              exact (hcons it (hsub.subset (List.mem_reverse.mp hit)) det hdet).1
            obtain ⟨k, hk⟩ := processedDets_dates_take remote.detail
              (e0 :: er).reverse (jobsOf (u0 :: us)) hfst hconsel
            rw [hk]
            haveI : IsTrans DatedItem (fun a b : DatedItem => b.date < a.date) :=
              ⟨fun a b c h1 h2 => Nat.lt_trans h2 h1⟩
            have hLpair : remote.listing.Pairwise (fun a b => b.date < a.date) :=
              List.chain'_iff_pairwise.mp hchain
            have hEpair : (e0 :: er).Pairwise (fun a b => b.date < a.date) :=
              hLpair.sublist hsub
            have hEdates : ((e0 :: er).map DatedItem.date).Pairwise
                (fun a b : Nat => b < a) :=
              hEpair.map _ (fun a b h => h)
            have hRdates : (((e0 :: er).reverse).map DatedItem.date).Pairwise
                (fun a b : Nat => a < b) := by
              rw [List.map_reverse]
              exact List.pairwise_reverse.mpr hEdates
            exact hRdates.sublist (List.take_sublist _ _)
        · intro x hx y hy
          have hx2 : x ∈ (processedDets remote.detail
              (jobsOf (u0 :: us))).map Detail.date := List.mem_reverse.mp hx
          obtain ⟨det, hdetmem, hdx⟩ := List.mem_map.mp hx2
          have h1 := (hmemP det hdetmem).1
          have h2 := hhead y hy
          omega

/-- A whole run preserves strict newest-first ordering of the ledger
record dates. -/
theorem runMain_sorted (today : Nat) (remote : Remote) (file? : Option Str)
    (hchain : List.Chain' (fun a b : DatedItem => b.date < a.date) remote.listing)
    (hcons : ∀ it ∈ remote.listing, ∀ det, remote.detail it.url = some det →
      det.date = it.date ∧ det.date < 100000000 ∧
      10 ∉ det.filename ∧ 10 ∉ det.title ∧ 10 ∉ det.description)
    (hsorted : ∀ f0, file? = some f0 →
      List.Chain' (fun a b : Nat => b < a) (recordDates f0)) :
    List.Chain' (fun a b : Nat => b < a)
      (recordDates (runMain today remote file?).file) := by
  cases file? with
  | none =>
    show List.Chain' (fun a b : Nat => b < a)
      (recordDates (runAfterBaseline today (today - 1) remote [10]).file)
    apply runAfterBaseline_sorted today (today - 1) remote [10] hchain hcons
    · show List.Chain' (fun a b : Nat => b < a) (recordDates [10])
      decide
    · intro y hy
      have : recordDates [10] = [] := by decide
      rw [this] at hy
      simp at hy
  | some f =>
    cases h8 : readFirst8 f with
    | none =>
      simp only [runMain, h8]
      exact hsorted f rfl
    | some buf =>
      cases hp : parseDate8 buf with
      | none =>
        simp only [runMain, h8, hp]
        exact hsorted f rfl
      | some d =>
        by_cases hd : d = today
        · simp only [runMain, h8, hp, if_pos hd]
          exact hsorted f rfl
        · simp only [runMain, h8, hp, if_neg hd]
          apply runAfterBaseline_sorted today d remote f hchain hcons (hsorted f rfl)
          obtain ⟨tl, htl⟩ := recordDates_head f buf d h8 hp
          have hpair : List.Pairwise (fun a b : Nat => b < a) (recordDates f) :=
            List.chain'_iff_pairwise.mp (hsorted f rfl)
          rw [htl] at hpair
          have hall := (List.pairwise_cons.mp hpair).1
          intro y hy
          rw [htl] at hy
          rcases List.mem_cons.mp hy with rfl | hy2
          · exact Nat.le_refl y
          · exact Nat.le_of_lt (hall y hy2)

/-- C5: a run starting from a ledger whose records are sorted strictly
newest-first leaves the ledger sorted strictly newest-first (eligible
items are processed oldest-first, each append prepending its record),
assuming the remote listing is strictly newest-first and every resolved
detail page carries the listing date in newline-free fields. -/
theorem newest_first_preserved (today : Nat) (remote : Remote) (file? : Option Str)
    (hchain : List.Chain' (fun a b : DatedItem => b.date < a.date) remote.listing)
    (hcons : ∀ it ∈ remote.listing, ∀ det, remote.detail it.url = some det →
      det.date = it.date ∧ det.date < 100000000 ∧
      10 ∉ det.filename ∧ 10 ∉ det.title ∧ 10 ∉ det.description)
    (hsorted : ∀ f0, file? = some f0 →
      List.Chain' (fun a b : Nat => b < a) (recordDates f0)) :
    List.Chain' (fun a b : Nat => b < a)
      (recordDates (runMain today remote file?).file) :=
  runMain_sorted today remote file? hchain hcons hsorted

/-- Witness for ordering preservation: a two-item catch-up run against a
ledger holding dates 3 and 2 stays strictly newest-first. -/
theorem newest_first_preserved_witness :
    List.Chain' (fun a b : Nat => b < a)
      (recordDates (runMain 5 ⟨true, [⟨5, 1⟩, ⟨4, 2⟩],
        fun u => if u = 1 then some ⟨5, [102], [116], [100]⟩
          else if u = 2 then some ⟨4, [103], [117], [101]⟩ else none⟩
        (some (dateCode 3 ++ (32 :: 97 :: 10 :: dateCode 2) ++ [32, 98, 10]))).file) :=
  newest_first_preserved 5 ⟨true, [⟨5, 1⟩, ⟨4, 2⟩],
      fun u => if u = 1 then some ⟨5, [102], [116], [100]⟩
        else if u = 2 then some ⟨4, [103], [117], [101]⟩ else none⟩
    (some (dateCode 3 ++ (32 :: 97 :: 10 :: dateCode 2) ++ [32, 98, 10]))
    (by simp [List.chain'_cons])
    (by
      intro it hit det hdet
      simp only [List.mem_cons, List.not_mem_nil, or_false] at hit
      rcases hit with rfl | rfl <;> simp_all <;> subst hdet <;> decide)
    (by
      intro f0 hf0
      injection hf0 with hf0
      rw [← hf0]
      have hrd : recordDates
          (dateCode 3 ++ (32 :: 97 :: 10 :: dateCode 2) ++ [32, 98, 10]) = [3, 2] := by
        decide
      rw [hrd]
      simp [List.chain'_cons])

/-- Strictly descending date lists have no duplicates. -/
theorem nodup_of_sorted_desc (ds : List Nat)
    (hds : List.Chain' (fun a b : Nat => b < a) ds) : ds.Nodup := by
  have hp := List.chain'_iff_pairwise.mp hds
  exact hp.imp (fun h => (Nat.ne_of_lt h).symm)

/-- C6: over any sequence of runs — each only appending records dated
strictly after the baseline read from the ledger head, which is how the
window computation works — the ledger never holds two records with the
same date; uniqueness comes from the window computation alone, with no
write-time check. -/
theorem no_duplicate_dates (runs : List (Nat × Remote)) :
    ∀ file? : Option Str,
      (∀ p ∈ runs,
        List.Chain' (fun a b : DatedItem => b.date < a.date) p.2.listing ∧
        (∀ it ∈ p.2.listing, ∀ det, p.2.detail it.url = some det →
          det.date = it.date ∧ det.date < 100000000 ∧
          10 ∉ det.filename ∧ 10 ∉ det.title ∧ 10 ∉ det.description)) →
      (∀ f0, file? = some f0 →
        List.Chain' (fun a b : Nat => b < a) (recordDates f0)) →
      ∀ f1, runFold file? runs = some f1 → (recordDates f1).Nodup := by
  induction runs with
  | nil =>
    intro file? hr hs f1 hf1
    have hf : file? = some f1 := hf1
    exact nodup_of_sorted_desc _ (hs f1 hf)
  | cons pr rest ih =>
    intro file? hr hs f1 hf1
    obtain ⟨t, rm⟩ := pr
    have hstep : runFold file? ((t, rm) :: rest) =
        runFold (some (runMain t rm file?).file) rest := rfl
    rw [hstep] at hf1
    have hhd := hr (t, rm) (List.mem_cons_self _ _)
    refine ih (some (runMain t rm file?).file)
      (fun p hp => hr p (List.mem_cons_of_mem _ hp)) ?_ f1 hf1
    intro f0 hf0
    injection hf0 with hf0
    rw [← hf0]
    exact runMain_sorted t rm file? hhd.1 hhd.2 hs

/-- Witness for duplicate-freedom: one catch-up run over a two-record
ledger produces a duplicate-free ledger. -/
theorem no_duplicate_dates_witness :
    (recordDates (runMain 5 ⟨true, [⟨5, 1⟩, ⟨4, 2⟩],
      fun u => if u = 1 then some ⟨5, [102], [116], [100]⟩
        else if u = 2 then some ⟨4, [103], [117], [101]⟩ else none⟩
      (some (dateCode 3 ++ (32 :: 97 :: 10 :: dateCode 2) ++ [32, 98, 10]))).file).Nodup :=
  no_duplicate_dates
    [(5, ⟨true, [⟨5, 1⟩, ⟨4, 2⟩],
      fun u => if u = 1 then some ⟨5, [102], [116], [100]⟩
        else if u = 2 then some ⟨4, [103], [117], [101]⟩ else none⟩)]
    (some (dateCode 3 ++ (32 :: 97 :: 10 :: dateCode 2) ++ [32, 98, 10]))
    (by
      intro p hp
      simp only [List.mem_cons, List.not_mem_nil, or_false] at hp
      subst hp
      refine ⟨by simp [List.chain'_cons], ?_⟩
      intro it hit det hdet
      simp only [List.mem_cons, List.not_mem_nil, or_false] at hit
      rcases hit with rfl | rfl <;> simp_all <;> subst hdet <;> decide)
    (by
      intro f0 hf0
      injection hf0 with hf0
      rw [← hf0]
      have hrd : recordDates
          (dateCode 3 ++ (32 :: 97 :: 10 :: dateCode 2) ++ [32, 98, 10]) = [3, 2] := by
        decide
      rw [hrd]
      simp [List.chain'_cons])
    _ rfl

/-- A non-empty collection starts with an item at which a rescan from its
own date immediately stops. -/
theorem collect_head_stop (lastDate today : Nat) :
    ∀ (l : List DatedItem) (u : Nat) (us : List Nat),
      List.Chain' (fun a b : DatedItem => b.date < a.date) l →
      collectUrls lastDate today l = u :: us →
      ∃ it ∈ l, it.url = u ∧ lastDate < it.date ∧ it.date ≤ today ∧
        collectUrls it.date today l = [] := by
  intro l
  induction l with
  | nil =>
    intro u us hch hc
    simp [collectUrls] at hc
  | cons x t ih =>
    intro u us hch hc
    by_cases h1 : x.date ≤ lastDate
    · rw [show collectUrls lastDate today (x :: t) = [] from by
        simp [collectUrls, h1]] at hc
      exact absurd hc (by simp)
    · have hch2 : List.Chain' (fun a b : DatedItem => b.date < a.date) t :=
        (List.chain'_cons'.mp hch).2
      by_cases h2 : today < x.date
      · have hc2 : collectUrls lastDate today t = u :: us := by
          rw [← hc]
          simp [collectUrls, h1, h2]
        obtain ⟨it, hitm, hitu, hitd1, hitd2, hstop⟩ := ih u us hch2 hc2
        refine ⟨it, List.mem_cons_of_mem _ hitm, hitu, hitd1, hitd2, ?_⟩
        have hxit : ¬ x.date ≤ it.date := by omega
        simp [collectUrls, hxit, h2, hstop]
      · rw [show collectUrls lastDate today (x :: t) =
          x.url :: collectUrls lastDate today t from by
            simp [collectUrls, h1, h2]] at hc
        injection hc with hcu hcus
        refine ⟨x, List.mem_cons_self _ _, hcu, by omega, by omega, ?_⟩
        simp [collectUrls]

/-- Step equation of the processed-records list at a resolving job. -/
theorem processedDets_cons (dt : Nat → Option Detail) (u : Nat) (pres : Bool)
    (rest : List (Nat × Bool)) (det : Detail) (hdu : dt u = some det) :
    processedDets dt ((u, pres) :: rest) = det :: processedDets dt rest := by
  simp [processedDets, hdu]

/-- A completed non-empty processing batch ends with the record of its
last job. -/
theorem processedDets_last (dt : Nat → Option Detail) :
    ∀ jobs : List (Nat × Bool), ∀ hne : jobs ≠ [],
      goAborts dt jobs = false →
      ∃ det pre, dt (jobs.getLast hne).1 = some det ∧
        processedDets dt jobs = pre ++ [det] := by
  intro jobs
  induction jobs with
  | nil => intro h; exact absurd rfl h
  | cons j rest ih =>
    intro hne hab
    obtain ⟨u, pres⟩ := j
    cases hdu : dt u with
    | none => simp [goAborts, hdu] at hab
    | some det =>
      cases rest with
      | nil =>
        refine ⟨det, [], ?_, by simp [processedDets, hdu]⟩
        simpa [List.getLast] using hdu
      | cons j2 r2 =>
        have hab2 : goAborts dt (j2 :: r2) = false := by
          simpa [goAborts, hdu] using hab
        obtain ⟨detL, pre, hdl, hpd⟩ := ih (List.cons_ne_nil _ _) hab2
        refine ⟨detL, det :: pre, ?_, ?_⟩
        · rw [List.getLast_cons (List.cons_ne_nil _ _)]
          exact hdl
        · rw [processedDets_cons dt u pres (j2 :: r2) det hdu, hpd]
          simp

/-- Reading the head of a ledger just extended by a record returns the
record's date code. -/
theorem readFirst8_log (det : Detail) (F : Str) :
    readFirst8 (logWallpaper det F) = some (dateCode det.date) := by
  have hshape : logWallpaper det F = dateCode det.date ++
      (32 :: (det.filename ++
        (32 :: (escapeDescription (composedDesc det) ++ (10 :: F))))) := by
    simp [logWallpaper, encodeLine]
  rw [hshape]
  exact readFirst8_dateCode det.date _

/-- After a completed run that appended at least one record, the next run
against unchanged remote content reads the newest appended date, collects
nothing, and performs at most the listing fetch with no appends. -/
theorem second_run_after_appends (today lastDate : Nat) (remote : Remote) (f : Str)
    (hchain : List.Chain' (fun a b : DatedItem => b.date < a.date) remote.listing)
    (hcons : ∀ it ∈ remote.listing, ∀ det, remote.detail it.url = some det →
      det.date = it.date ∧ det.date < 100000000)
    (hok : remote.listingOk = true) (hemp : remote.listing.isEmpty = false)
    (u0 : Nat) (us : List Nat)
    (hcoll : collectUrls lastDate today remote.listing = u0 :: us)
    (hnoab : goAborts remote.detail (jobsOf (u0 :: us)) = false) :
    networkCalls (runMain today remote
      (some (runAfterBaseline today lastDate remote f).file)).trace ≤ 1 ∧
    appendsOf (runMain today remote
      (some (runAfterBaseline today lastDate remote f).file)).trace = [] := by
  rw [runAfterBaseline_go today lastDate remote f hok hemp u0 us hcoll]
  show networkCalls (runMain today remote
      (some (goProcess remote.detail (jobsOf (u0 :: us)) f [Eff.fetchListing]).1)).trace ≤ 1 ∧
    appendsOf (runMain today remote
      (some (goProcess remote.detail (jobsOf (u0 :: us)) f [Eff.fetchListing]).1)).trace = []
  rw [goProcess_file]
  have hne : jobsOf (u0 :: us) ≠ [] := by
    simp [jobsOf]
  obtain ⟨detL, pre, hdl, hpd⟩ := processedDets_last remote.detail _ hne hnoab
  have hgetlast : (jobsOf (u0 :: us)).getLast hne = (u0, true) := by
    show ((us.reverse.map (fun u => (u, false))) ++ [(u0, true)]).getLast _ = (u0, true)
    exact List.getLast_append _
  rw [hgetlast] at hdl
  obtain ⟨it, hitm, hitu, hitd1, hitd2, hstop⟩ :=
    collect_head_stop lastDate today remote.listing u0 us hchain hcoll
  obtain ⟨hdate_eq, hdlt⟩ := hcons it hitm detL (by rw [hitu]; exact hdl)
  have hfold : List.foldl (fun acc det => logWallpaper det acc) f (pre ++ [detL]) =
      logWallpaper detL (List.foldl (fun acc det => logWallpaper det acc) f pre) := by
    rw [List.foldl_append]
    rfl
  rw [hpd, hfold]
  have hrf := readFirst8_log detL
    (List.foldl (fun acc det => logWallpaper det acc) f pre)
  have hpp : parseDate8 (dateCode detL.date) = some detL.date :=
    parseDate8_dateCode _ hdlt
  by_cases hT : detL.date = today
  · have hfp : runMain today remote (some (logWallpaper detL
        (List.foldl (fun acc det => logWallpaper det acc) f pre))) =
        ⟨logWallpaper detL (List.foldl (fun acc det => logWallpaper det acc) f pre),
          [], RunOutcome.fastPath⟩ := by
      simp only [runMain, hrf, hpp]
      rw [if_pos hT]
    rw [hfp]
    refine ⟨?_, rfl⟩
    show networkCalls [] ≤ 1
    decide
  · rw [runMain_some_eq today remote _ _ detL.date hrf hpp hT]
    have hstop2 : collectUrls detL.date today remote.listing = [] := by
      rw [hdate_eq]
      exact hstop
    rw [runAfterBaseline_noopEq today detL.date remote _ hok hemp hstop2]
    refine ⟨?_, rfl⟩
    show networkCalls [Eff.fetchListing] ≤ 1
    decide

/-- C7: the idempotence fast path.  First, when the date parsed from the
ledger's first 8 bytes equals today, the run exits immediately: no
effects at all, ledger byte-identical.  Second, after any non-aborted run
the immediately following run against unchanged remote content performs
at most one network request (the listing fetch) and appends nothing. -/
theorem idempotence_fast_path (today : Nat) (remote : Remote) :
    (∀ (f buf : Str), readFirst8 f = some buf → parseDate8 buf = some today →
      runMain today remote (some f) = ⟨f, [], RunOutcome.fastPath⟩) ∧
    (∀ file? : Option Str,
      List.Chain' (fun a b : DatedItem => b.date < a.date) remote.listing →
      (∀ it ∈ remote.listing, ∀ det, remote.detail it.url = some det →
        det.date = it.date ∧ det.date < 100000000) →
      (runMain today remote file?).outcome ≠ RunOutcome.aborted →
      networkCalls (runMain today remote
        (some (runMain today remote file?).file)).trace ≤ 1 ∧
      appendsOf (runMain today remote
        (some (runMain today remote file?).file)).trace = []) := by
  constructor
  · intro f buf h8 hp
    simp [runMain, h8, hp]
  · intro file? hchain hcons hout
    have hAB : ∀ (d : Nat) (f : Str),
        (runAfterBaseline today d remote f).outcome ≠ RunOutcome.aborted →
        (collectUrls d today remote.listing = [] →
          networkCalls (runMain today remote (some f)).trace ≤ 1 ∧
          appendsOf (runMain today remote (some f)).trace = []) →
        networkCalls (runMain today remote
          (some (runAfterBaseline today d remote f).file)).trace ≤ 1 ∧
        appendsOf (runMain today remote
          (some (runAfterBaseline today d remote f).file)).trace = [] := by
      intro d f hout2 hbase
      cases hok : remote.listingOk with
      | false =>
        rw [runAfterBaseline_nolist today d remote f hok] at hout2
        exact absurd rfl hout2
      | true =>
        cases hemp : remote.listing.isEmpty with
        | true =>
          rw [runAfterBaseline_emptylist today d remote f hok hemp] at hout2
          exact absurd rfl hout2
        | false =>
          cases hcoll : collectUrls d today remote.listing with
          | nil =>
            rw [runAfterBaseline_noopEq today d remote f hok hemp hcoll]
            exact hbase hcoll
          | cons u0 us =>
            have hgo : goAborts remote.detail (jobsOf (u0 :: us)) = false := by
              rw [runAfterBaseline_go today d remote f hok hemp u0 us hcoll] at hout2
              rcases Bool.eq_false_or_eq_true
                (goAborts remote.detail (jobsOf (u0 :: us))) with h | h
              · exfalso
                apply hout2
                show (if (goProcess remote.detail (jobsOf (u0 :: us)) f
                  [Eff.fetchListing]).2.2 = true then RunOutcome.aborted
                  else RunOutcome.completed) = RunOutcome.aborted
                rw [goProcess_ab, h]
                rfl
              · exact h
            exact second_run_after_appends today d remote f hchain hcons
              hok hemp u0 us hcoll hgo
    cases file? with
    | none =>
      have h1 : runMain today remote none =
          runAfterBaseline today (today - 1) remote [10] := rfl
      rw [h1] at hout ⊢
      apply hAB (today - 1) [10] hout
      intro _
      have hr2 : runMain today remote (some [10]) =
          ⟨[10], [], RunOutcome.aborted⟩ := by
        simp only [runMain,
          show readFirst8 [10] = some [10, 0, 0, 0, 0, 0, 0, 0] from by decide,
          show parseDate8 [10, 0, 0, 0, 0, 0, 0, 0] = none from by decide]
      rw [hr2]
      refine ⟨?_, rfl⟩
      show networkCalls [] ≤ 1
      decide
    | some f =>
      cases h8 : readFirst8 f with
      | none =>
        have h1 : runMain today remote (some f) = ⟨f, [], RunOutcome.aborted⟩ := by
          simp [runMain, h8]
        rw [h1] at hout
        exact absurd rfl hout
      | some buf =>
        cases hp : parseDate8 buf with
        | none =>
          have h1 : runMain today remote (some f) = ⟨f, [], RunOutcome.aborted⟩ := by
            simp [runMain, h8, hp]
          rw [h1] at hout
          exact absurd rfl hout
        | some d =>
          by_cases hdT : d = today
          · have h1 : runMain today remote (some f) = ⟨f, [], RunOutcome.fastPath⟩ := by
              simp only [runMain, h8, hp, if_pos hdT]
            rw [h1]
            show networkCalls (runMain today remote (some f)).trace ≤ 1 ∧
              appendsOf (runMain today remote (some f)).trace = []
            rw [h1]
            refine ⟨?_, rfl⟩
            show networkCalls [] ≤ 1
            decide
          · have h1 : runMain today remote (some f) = runAfterBaseline today d remote f :=
              runMain_some_eq today remote f buf d h8 hp hdT
            rw [h1] at hout ⊢
            apply hAB d f hout
            intro hcoll0
            rw [runMain_some_eq today remote f buf d h8 hp hdT]
            rw [runAfterBaseline_noopEq today d remote f ?hok2 ?hemp2 hcoll0]
            · refine ⟨?_, rfl⟩
              show networkCalls [Eff.fetchListing] ≤ 1
              decide
            case hok2 =>
              rcases Bool.eq_false_or_eq_true remote.listingOk with h | h
              · exact h
              · rw [runAfterBaseline_nolist today d remote f h] at hout
                exact absurd rfl hout
            case hemp2 =>
              rcases Bool.eq_false_or_eq_true remote.listing.isEmpty with h | h
              · rw [runAfterBaseline_emptylist today d remote f ?_ h] at hout
                · exact absurd rfl hout
                · rcases Bool.eq_false_or_eq_true remote.listingOk with h2 | h2
                  · exact h2
                  · rw [runAfterBaseline_nolist today d remote f h2] at hout
                    exact absurd rfl hout
              · exact h

/-- Witness for the idempotence fast path: a ledger headed by today's
date exits untouched with an empty trace, and after a completed two-item
catch-up run the follow-up run performs at most one network request and
appends nothing. -/
theorem idempotence_fast_path_witness :
    runMain 5 ⟨true, [⟨5, 1⟩, ⟨4, 2⟩],
      fun u => if u = 1 then some ⟨5, [102], [116], [100]⟩
        else if u = 2 then some ⟨4, [103], [117], [101]⟩ else none⟩
      (some (dateCode 5 ++ [10])) =
      ⟨dateCode 5 ++ [10], [], RunOutcome.fastPath⟩ ∧
    networkCalls (runMain 5 ⟨true, [⟨5, 1⟩, ⟨4, 2⟩],
      fun u => if u = 1 then some ⟨5, [102], [116], [100]⟩
        else if u = 2 then some ⟨4, [103], [117], [101]⟩ else none⟩
      (some (runMain 5 ⟨true, [⟨5, 1⟩, ⟨4, 2⟩],
        fun u => if u = 1 then some ⟨5, [102], [116], [100]⟩
          else if u = 2 then some ⟨4, [103], [117], [101]⟩ else none⟩
        (some (dateCode 3 ++ [10]))).file)).trace ≤ 1 ∧
    appendsOf (runMain 5 ⟨true, [⟨5, 1⟩, ⟨4, 2⟩],
      fun u => if u = 1 then some ⟨5, [102], [116], [100]⟩
        else if u = 2 then some ⟨4, [103], [117], [101]⟩ else none⟩
      (some (runMain 5 ⟨true, [⟨5, 1⟩, ⟨4, 2⟩],
        fun u => if u = 1 then some ⟨5, [102], [116], [100]⟩
          else if u = 2 then some ⟨4, [103], [117], [101]⟩ else none⟩
        (some (dateCode 3 ++ [10]))).file)).trace = [] :=
  ⟨(idempotence_fast_path 5 ⟨true, [⟨5, 1⟩, ⟨4, 2⟩],
      fun u => if u = 1 then some ⟨5, [102], [116], [100]⟩
        else if u = 2 then some ⟨4, [103], [117], [101]⟩ else none⟩).1
      (dateCode 5 ++ [10]) (dateCode 5) (by decide) (by decide),
    (idempotence_fast_path 5 ⟨true, [⟨5, 1⟩, ⟨4, 2⟩],
      fun u => if u = 1 then some ⟨5, [102], [116], [100]⟩
        else if u = 2 then some ⟨4, [103], [117], [101]⟩ else none⟩).2
      (some (dateCode 3 ++ [10]))
      (by simp [List.chain'_cons])
      (by
        intro it hit det hdet
        simp only [List.mem_cons, List.not_mem_nil, or_false] at hit
        rcases hit with rfl | rfl <;> simp_all <;> subst hdet <;> decide)
      (by decide)⟩

/-- C9: failed-run recovery does not hold.  A first run that creates the
ledger placeholder (a single newline) and then aborts before any append
(here: the listing fetch fails) leaves a 1-byte ledger; the next
invocation — even against a healthy remote — aborts while parsing the
placeholder's first 8 bytes (newline plus NUL padding) before any network
activity, so catch-up is never resumed from the yesterday baseline. -/
theorem failed_first_run_no_recovery :
    (runMain 5 ⟨false, [], fun _ => none⟩ none).outcome = RunOutcome.aborted ∧
    (runMain 5 ⟨false, [], fun _ => none⟩ none).file = [10] ∧
    (runMain 5 ⟨true, [⟨5, 1⟩, ⟨4, 2⟩], fun _ => some ⟨5, [102], [116], [100]⟩⟩
      (some (runMain 5 ⟨false, [], fun _ => none⟩ none).file)).outcome =
      RunOutcome.aborted ∧
    (runMain 5 ⟨true, [⟨5, 1⟩, ⟨4, 2⟩], fun _ => some ⟨5, [102], [116], [100]⟩⟩
      (some (runMain 5 ⟨false, [], fun _ => none⟩ none).file)).trace = [] := by
  decide

/-- C10: the claim fails at the empty ledger file: there the 8-byte read
itself returns an error (Go File.Read yields 0 bytes and io.EOF), rather
than returning fewer bytes without error; the run still aborts. -/
theorem short_ledger_read_error_cex :
    readFirst8 [] = none ∧ (([] : Str).length < 8) ∧
    runMain 5 ⟨false, [], fun _ => none⟩ (some []) =
      ⟨[], [], RunOutcome.aborted⟩ := by
  decide

/-- C10 (amended): for every existing ledger file with at least one but
fewer than 8 bytes — such as the single-newline placeholder — the 8-byte
read returns the available bytes without error, NUL-padded; the
fixed-width date parse of that buffer fails; and the run aborts rather
than returning none or falling back to the yesterday baseline.  (For the
empty file the read itself errors, likewise aborting.) -/
theorem short_ledger_aborts (f : Str) (today : Nat) (remote : Remote)
    (hne : f ≠ []) (hlen : f.length < 8) :
    readFirst8 f = some (f ++ List.replicate (8 - f.length) 0) ∧
    parseDate8 (f ++ List.replicate (8 - f.length) 0) = none ∧
    runMain today remote (some f) = ⟨f, [], RunOutcome.aborted⟩ := by
  have hfe : f.isEmpty = false := by
    cases f with
    | nil => exact absurd rfl hne
    | cons a t => rfl
  have htake : f.take 8 = f := List.take_of_length_le (by omega)
  have h8 : readFirst8 f = some (f ++ List.replicate (8 - f.length) 0) := by
    simp [readFirst8, hfe, htake]
  have hz : (0 : Nat) ∈ f ++ List.replicate (8 - f.length) 0 := by
    refine List.mem_append.mpr (Or.inr ?_)
    exact List.mem_replicate.mpr ⟨by omega, rfl⟩
  have hp := parseDate8_none_of_bad hz (Or.inl (by omega))
  refine ⟨h8, hp, ?_⟩
  simp [runMain, h8, hp]

/-- Witness for the short-ledger abort at the 1-byte placeholder. -/
theorem short_ledger_aborts_witness :
    readFirst8 [10] = some ([10] ++ List.replicate (8 - ([10] : Str).length) 0) ∧
    parseDate8 ([10] ++ List.replicate (8 - ([10] : Str).length) 0) = none ∧
    runMain 5 ⟨false, [], fun _ => none⟩ (some [10]) =
      ⟨[10], [], RunOutcome.aborted⟩ :=
  short_ledger_aborts [10] 5 ⟨false, [], fun _ => none⟩ (by decide) (by decide)
